import Mathlib

/-! LevelDB per-level Bloom filter policy (`util/bloom.cc`).

A shallow embedding of `BloomFilterPolicy` (constructor, `CreateFilter`,
`KeyMayMatch`) and of `BloomHash`, followed by the properties proved about them.

Conventions of the embedding.

* A `Slice` / `std::string` is a list of bytes (`UInt8`).
* `uint32_t` values are naturals kept below `2 ^ 32` by an explicit `% 2 ^ 32`
  after every operation that can wrap.
* The 64-bit size arithmetic of lines 43 and 49 is taken modulo `2 ^ 64`: the product
  `n * bits_per_key` is a `long` converted to `size_t` (overflow of the signed product
  is undefined in C++; two's complement targets wrap, and the conversion then gives
  the product modulo `2 ^ 64`), and `bits + 7` is a `size_t` sum.  The lengths of
  strings and of the key list are naturals.
* `util/hash.h` is outside this translation unit: `Hash` is a parameter.  Whether
  plain `char` is signed is implementation-defined: it is a parameter as well.
* The `double` arithmetic of the constructor is modelled exactly (IEEE-754
  binary64, round to nearest, ties to even) on integer significands.
* Undefined behaviour (remainder by zero, access outside the string, indexing a
  vector outside its size) is made explicit as a `Fault`.
-/

namespace leveldb

/-- Bytes of a `Slice` or of a `std::string`. -/
abbrev Slice := List UInt8

/-- What `bloom.cc` takes from its surroundings: the function `Hash(data, size, seed)`
of `util/hash.h`, and the signedness of plain `char` on the compilation target. -/
structure Target where
  Hash : Slice → Nat → Nat
  charSigned : Bool

/-- Lines 16-18: `BloomHash`.  The result type is `uint32_t`. -/
def BloomHash (T : Target) (key : Slice) : Nat :=
  T.Hash key 0xbc9f1d34 % 2 ^ 32

/-! ## The `double` arithmetic of the constructor -/

/-- Number of low-order bits that a non-negative integer loses when it is cut to a
significand of 53 bits (first argument: fuel, any value `≥ x` is enough). -/
def dropBits : Nat → Nat → Nat
  | 0, _ => 0
  | f + 1, x => if x < 2 ^ 53 then 0 else dropBits f (x / 2) + 1

/-- IEEE-754 binary64 rounding (to nearest, ties to even) of a non-negative integer
number of units: the nearest integer with at most 53 significant bits. -/
def roundSig53 (x : Nat) : Nat :=
  let e := dropBits x x
  let q := x / 2 ^ e
  let rest := x % 2 ^ e
  if 2 ^ e < 2 * rest ∨ (2 * rest = 2 ^ e ∧ q % 2 = 1) then (q + 1) * 2 ^ e else q * 2 ^ e

/-- The `double` literal `0.69` is `6214967485771284 / 2 ^ 53` (`0x1.6147ae147ae14p-1`). -/
def sig_0_69 : Nat := 6214967485771284

/-- Line 28: `static_cast<size_t>(bits_per_key * 0.69)`.  The `long` is converted to
`double` (rounded), the product is the rounded exact product (kept here in units of
`2 ^ -53`), and the cast truncates. -/
def truncMul069 (bits_per_key : Nat) : Nat :=
  roundSig53 (roundSig53 bits_per_key * sig_0_69) / 2 ^ 53

/-- Lines 28-30: the probe count derived from one bits-per-key value. -/
def probesFor (bits_per_key : Nat) : Nat :=
  let k_ := truncMul069 bits_per_key
  let k_ := if k_ < 1 then 1 else k_
  if k_ > 30 then 30 else k_

/-! ## The policy object -/

/-- Lines 98-99: the two private members. -/
structure BloomFilterPolicy where
  bits_per_key_per_level_ : List Nat
  k_per_level_ : List Nat

/-- Lines 22-34 and 103-105: the constructor, one `push_back` per level. -/
def NewBloomFilterPolicy (bits_per_key_per_level : List Nat) : BloomFilterPolicy :=
  { bits_per_key_per_level_ := bits_per_key_per_level
    k_per_level_ := bits_per_key_per_level.foldl (fun ks b => ks ++ [probesFor b]) [] }

/-! ## Faults and `char` conversions -/

/-- The ways in which the C++ code can leave defined behaviour. -/
inductive Fault where
  | badLevel
  | modZero
  | outOfBounds
  deriving DecidableEq, Repr

/-- State of a `CreateFilter` call: the string `*dst` and the fault that stopped the
call, if any (`none`: still running, or returned normally). -/
structure Run where
  dst : List UInt8
  fault : Option Fault
  deriving DecidableEq

/-- Integral promotion of a `char` to `int`, as a 32-bit two's complement pattern. -/
def intOfChar (charSigned : Bool) (c : UInt8) : Nat :=
  if charSigned && decide (128 ≤ c.toNat) then c.toNat + (2 ^ 32 - 256) else c.toNat

/-- Conversion of a `char` to `size_t` (64 bits). -/
def sizeOfChar (charSigned : Bool) (c : UInt8) : Nat :=
  if charSigned && decide (128 ≤ c.toNat) then c.toNat + (2 ^ 64 - 256) else c.toNat

/-- Lines 61 and 88: `(h >> 17) | (h << 15)` on `uint32_t`. -/
def rotDelta (h : Nat) : Nat :=
  (h >>> 17) ||| ((h <<< 15) % 2 ^ 32)

/-! ## `CreateFilter` -/

/-- Lines 62-66: the probe loop of one key, with `remaining = k - j` iterations left.
`array[i]` is `(*dst)[init_size + i]`. -/
def setProbes (T : Target) (bits init_size delta : Nat) :
    Nat → Nat → List UInt8 → Run
  | 0, _, dst => ⟨dst, none⟩
  | remaining + 1, h, dst =>
    if bits = 0 then ⟨dst, some Fault.modZero⟩
    else
      let bitpos := h % bits % 2 ^ 32
      match dst[init_size + bitpos / 8]? with
      | none => ⟨dst, some Fault.outOfBounds⟩
      | some c =>
        let c1 := UInt8.ofNat (intOfChar T.charSigned c ||| (1 <<< (bitpos % 8)))
        setProbes T bits init_size delta remaining ((h + delta) % 2 ^ 32)
          (dst.set (init_size + bitpos / 8) c1)

/-- Lines 57-67: the loop over the keys. -/
def addKeys (T : Target) (k bits init_size : Nat) : List Slice → List UInt8 → Run
  | [], dst => ⟨dst, none⟩
  | key :: rest, dst =>
    let h := BloomHash T key
    let delta := rotDelta h
    let r := setProbes T bits init_size delta k h dst
    match r.fault with
    | some f => ⟨r.dst, some f⟩
    | none => addKeys T k bits init_size rest r.dst

/-- Lines 38-68: `CreateFilter(keys, n, dst, level)` with `n = keys.length`. -/
def CreateFilter (T : Target) (p : BloomFilterPolicy) (keys : List Slice)
    (dst : List UInt8) (level : Nat) : Run :=
  match p.bits_per_key_per_level_[level]?, p.k_per_level_[level]? with
  | some bits_per_key, some k =>
    let n := keys.length
    let bits := n * bits_per_key % 2 ^ 64
    let bytes := (bits + 7) % 2 ^ 64 / 8
    let bits := bytes * 8
    let init_size := dst.length
    let dst := dst ++ List.replicate bytes 0
    let dst := dst ++ [UInt8.ofNat k]
    addKeys T k bits init_size keys dst
  | _, _ => ⟨dst, some Fault.badLevel⟩

/-! ## `KeyMayMatch` -/

/-- Lines 89-94: the probe loop of a query, with `remaining = k - j` iterations left. -/
def testProbes (T : Target) (bits delta : Nat) (array : List UInt8) :
    Nat → Nat → Except Fault Bool
  | 0, _ => Except.ok true
  | remaining + 1, h =>
    if bits = 0 then Except.error Fault.modZero
    else
      let bitpos := h % bits % 2 ^ 32
      match array[bitpos / 8]? with
      | none => Except.error Fault.outOfBounds
      | some c =>
        if intOfChar T.charSigned c &&& (1 <<< (bitpos % 8)) = 0 then Except.ok false
        else testProbes T bits delta array remaining ((h + delta) % 2 ^ 32)

/-- Lines 70-95: `KeyMayMatch(key, bloom_filter)`.  It is a member function, so the
policy object is an argument; the body never reads it. -/
def KeyMayMatch (T : Target) (_p : BloomFilterPolicy) (key bloom_filter : Slice) :
    Except Fault Bool :=
  let len := bloom_filter.length
  if len < 2 then Except.ok false
  else
    let bits := (len - 1) * 8
    match bloom_filter[len - 1]? with
    | none => Except.error Fault.outOfBounds
    | some c =>
      let k := sizeOfChar T.charSigned c
      if k > 30 then Except.ok true
      else
        let h := BloomHash T key
        let delta := rotDelta h
        testProbes T bits delta bloom_filter k h

instance : DecidableEq (Except Fault Bool) := fun a b =>
  match a, b with
  | Except.ok x, Except.ok y =>
    if h : x = y then isTrue (by rw [h]) else isFalse (fun h1 => h (by cases h1; rfl))
  | Except.error x, Except.error y =>
    if h : x = y then isTrue (by rw [h]) else isFalse (fun h1 => h (by cases h1; rfl))
  | Except.ok _, Except.error _ => isFalse (fun h1 => by cases h1)
  | Except.error _, Except.ok _ => isFalse (fun h1 => by cases h1)

/-! ## Vocabulary of the statements -/

/-- Bit `p` of a byte array: byte `p / 8`, bit `p % 8` counted from the least
significant bit; `false` outside the array. -/
def bitAt (array : List UInt8) (p : Nat) : Bool :=
  match array[p / 8]? with
  | some c => c.toNat.testBit (p % 8)
  | none => false

/-- Lines 43 and 49: the byte count `(bits + 7) / 8` of `bits = n * bits_per_key`, both
in 64-bit arithmetic. -/
def filterBytes (n bits_per_key : Nat) : Nat :=
  (n * bits_per_key % 2 ^ 64 + 7) % 2 ^ 64 / 8

/-- The value of `h` at the start of iteration `j` of a probe loop. -/
def hashAt (h delta j : Nat) : Nat := (h + j * delta) % 2 ^ 32

/-- A concrete target at which the theorems are instantiated: a polynomial hash of the
bytes and the seed, and a signed plain `char`. -/
def exampleTarget : Target :=
  { Hash := fun key seed => key.foldl (fun a c => a * 31 + c.toNat) seed
    charSigned := true }

/-! ## The query with a log of the bytes it reads -/

/-- Lines 89-94 once more, returning next to the answer the byte indices `bitpos / 8`
at which the loop reads `array`, in the order of the reads. -/
def testProbesLog (T : Target) (bits delta : Nat) (array : List UInt8) :
    Nat → Nat → Except Fault Bool × List Nat
  | 0, _ => (Except.ok true, [])
  | remaining + 1, h =>
    if bits = 0 then (Except.error Fault.modZero, [])
    else
      let bitpos := h % bits % 2 ^ 32
      match array[bitpos / 8]? with
      | none => (Except.error Fault.outOfBounds, [bitpos / 8])
      | some c =>
        if intOfChar T.charSigned c &&& (1 <<< (bitpos % 8)) = 0 then
          (Except.ok false, [bitpos / 8])
        else
          let rest := testProbesLog T bits delta array remaining ((h + delta) % 2 ^ 32)
          (rest.1, bitpos / 8 :: rest.2)

/-- Lines 70-95 once more, with the log of the byte indices read by the probe loop (the
read of `array[len - 1]` on line 80, which fetches `k`, is not a probe and is not
logged). -/
def KeyMayMatchLog (T : Target) (_p : BloomFilterPolicy) (key bloom_filter : Slice) :
    Except Fault Bool × List Nat :=
  let len := bloom_filter.length
  if len < 2 then (Except.ok false, [])
  else
    let bits := (len - 1) * 8
    match bloom_filter[len - 1]? with
    | none => (Except.error Fault.outOfBounds, [])
    | some c =>
      let k := sizeOfChar T.charSigned c
      if k > 30 then (Except.ok true, [])
      else
        let h := BloomHash T key
        let delta := rotDelta h
        testProbesLog T bits delta bloom_filter k h

/-! ## Rotation of a 32-bit word, bit by bit -/

/-- The number whose bit `i` is `f i` for `i < n` and whose other bits are clear. -/
def bitsToNat (f : Nat → Bool) : Nat → Nat
  | 0 => 0
  | n + 1 => bitsToNat f n + (if f n then 2 ^ n else 0)

/-- Rotation of a 32-bit word to the right by `r` positions: bit `i` of the result is
bit `(i + r) mod 32` of the word. -/
def rotateRight32 (h r : Nat) : Nat :=
  bitsToNat (fun i => h.testBit ((i + r) % 32)) 32

/-- Rotation of a 32-bit word to the left by `r` positions: bit `i` of the result is
bit `(i + 32 - r) mod 32` of the word. -/
def rotateLeft32 (h r : Nat) : Nat :=
  bitsToNat (fun i => h.testBit ((i + (32 - r % 32)) % 32)) 32

/-! ## Facts about the rounding -/

theorem dropBits_succ (f x : Nat) :
    dropBits (f + 1) x = if x < 2 ^ 53 then 0 else dropBits f (x / 2) + 1 := rfl

theorem dropBits_zero_of_lt (f x : Nat) (hx : x < 2 ^ 53) : dropBits f x = 0 := by
  cases f with
  | zero => rfl
  | succ f => rw [dropBits_succ, if_pos hx]

theorem dropBits_pos_lower (f : Nat) : ∀ x, x ≤ f → 0 < dropBits f x →
    2 ^ 52 ≤ x / 2 ^ dropBits f x := by
  induction f with
  | zero => intro x _ h; simp [dropBits] at h
  | succ f ih =>
    intro x hx hpos
    by_cases hlt : x < 2 ^ 53
    · rw [dropBits_succ, if_pos hlt] at hpos
      exact absurd hpos (Nat.lt_irrefl 0)
    · have hd : dropBits (f + 1) x = dropBits f (x / 2) + 1 := by
        rw [dropBits_succ, if_neg hlt]
      have hdiv : x / 2 ^ (dropBits f (x / 2) + 1) = x / 2 / 2 ^ dropBits f (x / 2) := by
        rw [pow_succ, Nat.mul_comm, Nat.div_div_eq_div_mul]
      rw [hd, hdiv]
      by_cases h0 : dropBits f (x / 2) = 0
      · rw [h0, pow_zero, Nat.div_one]
        have h53 : (2 : Nat) ^ 53 = 2 * 2 ^ 52 := by norm_num
        omega
      · exact ih (x / 2) (by omega) (Nat.pos_of_ne_zero h0)

theorem floor_le_roundSig53 (x : Nat) :
    x / 2 ^ dropBits x x * 2 ^ dropBits x x ≤ roundSig53 x := by
  unfold roundSig53
  simp only
  split
  · exact Nat.mul_le_mul_right _ (Nat.le_succ _)
  · exact Nat.le_refl _

theorem roundSig53_of_lt (x : Nat) (hx : x < 2 ^ 53) : roundSig53 x = x := by
  unfold roundSig53
  simp [dropBits_zero_of_lt x x hx, Nat.mod_one]

/-- Rounding never falls below a representable value that the argument reaches. -/
theorem le_roundSig53 (c j x : Nat) (hc : c ≤ 2 ^ 52) (hx : c * 2 ^ j ≤ x) :
    c * 2 ^ j ≤ roundSig53 x := by
  refine Nat.le_trans ?_ (floor_le_roundSig53 x)
  by_cases he : dropBits x x ≤ j
  · obtain ⟨d, hd⟩ := Nat.exists_eq_add_of_le he
    have h2 : c * 2 ^ j = c * 2 ^ d * 2 ^ dropBits x x := by
      rw [hd, pow_add]; ring
    rw [h2] at hx ⊢
    exact Nat.mul_le_mul_right _ ((Nat.le_div_iff_mul_le (by positivity)).2 hx)
  · have hpos : 0 < dropBits x x := by omega
    have hq := dropBits_pos_lower x x (Nat.le_refl _) hpos
    calc c * 2 ^ j ≤ 2 ^ 52 * 2 ^ j := Nat.mul_le_mul_right _ hc
      _ ≤ x / 2 ^ dropBits x x * 2 ^ j := Nat.mul_le_mul_right _ hq
      _ ≤ x / 2 ^ dropBits x x * 2 ^ dropBits x x :=
          Nat.mul_le_mul_left _ (Nat.pow_le_pow_right (by norm_num) (by omega))

theorem truncMul069_ge_30 (b : Nat) (hb : 44 ≤ b) : 30 ≤ truncMul069 b := by
  unfold truncMul069 sig_0_69
  have h1 : 44 ≤ roundSig53 b := by
    have := le_roundSig53 44 0 b (by norm_num) (by simpa using hb)
    simpa using this
  have h2 : 30 * 2 ^ 53 ≤ roundSig53 b * 6214967485771284 := by
    calc 30 * 2 ^ 53 ≤ 44 * 6214967485771284 := by norm_num
      _ ≤ roundSig53 b * 6214967485771284 := Nat.mul_le_mul_right _ h1
  have h3 := le_roundSig53 30 53 _ (by norm_num) h2
  exact (Nat.le_div_iff_mul_le (by positivity)).2 h3

theorem probesFor_of_ge (b : Nat) (hb : 44 ≤ b) : probesFor b = 30 := by
  have h := truncMul069_ge_30 b hb
  unfold probesFor
  simp only
  split_ifs <;> omega

theorem probesFor_small (b : Nat) (hb : b < 44) : probesFor b = max 1 (min 30 (b * 69 / 100)) := by
  interval_cases b <;> decide

theorem probesFor_eq (b : Nat) : probesFor b = max 1 (min 30 (b * 69 / 100)) := by
  by_cases hb : b < 44
  · exact probesFor_small b hb
  · rw [probesFor_of_ge b (by omega)]
    have : 30 ≤ b * 69 / 100 := by omega
    omega

/-! ## Bytes and bits -/

theorem toNat_ofNat_byte (n : Nat) : (UInt8.ofNat n).toNat = n % 256 := by
  simp [UInt8.ofNat, UInt8.toNat]

theorem toNat_lt_byte (c : UInt8) : c.toNat < 256 := UInt8.toNat_lt_size c

set_option maxRecDepth 100000 in
theorem ext_and_bit : ∀ n < 256, ∀ r < 8,
    (n + (2 ^ 32 - 256)) &&& (1 <<< r) = n &&& (1 <<< r) := by decide

set_option maxRecDepth 100000 in
theorem ext_or_bit : ∀ n < 256, ∀ r < 8,
    ((n + (2 ^ 32 - 256)) ||| (1 <<< r)) % 256 = n ||| (1 <<< r) := by decide

set_option maxRecDepth 100000 in
theorem or_bit_lt : ∀ n < 256, ∀ r < 8, (n ||| (1 <<< r)) % 256 = n ||| (1 <<< r) := by decide

theorem and_bit_eq_zero (n r : Nat) : n &&& (1 <<< r) = 0 ↔ n.testBit r = false := by
  rw [Nat.one_shiftLeft, Nat.and_two_pow]
  cases n.testBit r <;> simp

/-- The test of line 91 reads bit `r` of the byte, whatever the signedness of `char`. -/
theorem intOfChar_and (s : Bool) (c : UInt8) (r : Nat) (hr : r < 8) :
    intOfChar s c &&& (1 <<< r) = 0 ↔ c.toNat.testBit r = false := by
  unfold intOfChar
  split
  · rw [ext_and_bit _ (toNat_lt_byte c) r hr]; exact and_bit_eq_zero _ _
  · exact and_bit_eq_zero _ _

/-- The assignment of line 64 ors bit `r` into the byte, whatever the signedness of `char`. -/
theorem orByte_toNat (s : Bool) (c : UInt8) (r : Nat) (hr : r < 8) :
    (UInt8.ofNat (intOfChar s c ||| (1 <<< r))).toNat = c.toNat ||| (1 <<< r) := by
  rw [toNat_ofNat_byte]
  unfold intOfChar
  split
  · exact ext_or_bit _ (toNat_lt_byte c) r hr
  · exact or_bit_lt _ (toNat_lt_byte c) r hr

theorem testBit_or_bit (n r i : Nat) :
    (n ||| (1 <<< r)).testBit i = (n.testBit i || decide (r = i)) := by
  rw [Nat.testBit_or, Nat.one_shiftLeft, Nat.testBit_two_pow]

theorem sizeOfChar_small (s : Bool) (c : UInt8) (hc : c.toNat < 128) :
    sizeOfChar s c = c.toNat := by
  unfold sizeOfChar
  have : ¬ 128 ≤ c.toNat := by omega
  simp [this]

theorem sizeOfChar_gt (s : Bool) (c : UInt8) (hc : 30 < c.toNat) : 30 < sizeOfChar s c := by
  unfold sizeOfChar
  split <;> omega

theorem hashAt_zero (h delta : Nat) (hh : h < 2 ^ 32) : hashAt h delta 0 = h := by
  unfold hashAt
  rw [Nat.zero_mul, Nat.add_zero, Nat.mod_eq_of_lt hh]

theorem hashAt_succ (h delta j : Nat) :
    hashAt ((h + delta) % 2 ^ 32) delta j = hashAt h delta (j + 1) := by
  unfold hashAt
  rw [Nat.add_mod, Nat.mod_mod, ← Nat.add_mod]
  congr 1
  ring

/-! ## One write of the build loop -/

theorem bitAt_set_self (array : List UInt8) (p : Nat) (c c1 : UInt8)
    (hc : array[p / 8]? = some c) (h1 : c1.toNat = c.toNat ||| (1 <<< (p % 8))) :
    bitAt (array.set (p / 8) c1) p = true := by
  have hlt : p / 8 < array.length := by
    rcases Nat.lt_or_ge (p / 8) array.length with h | h
    · exact h
    · rw [List.getElem?_eq_none h] at hc; cases hc
  unfold bitAt
  rw [List.getElem?_set, if_pos rfl, if_pos hlt]
  simp [h1, testBit_or_bit]

theorem bitAt_set_mono (array : List UInt8) (p q : Nat) (c c1 : UInt8)
    (hc : array[p / 8]? = some c) (h1 : c1.toNat = c.toNat ||| (1 <<< (p % 8)))
    (hq : bitAt array q = true) : bitAt (array.set (p / 8) c1) q = true := by
  have hlt : p / 8 < array.length := by
    rcases Nat.lt_or_ge (p / 8) array.length with h | h
    · exact h
    · rw [List.getElem?_eq_none h] at hc; cases hc
  unfold bitAt at hq ⊢
  rw [List.getElem?_set]
  by_cases hpq : p / 8 = q / 8
  · rw [if_pos hpq, if_pos hlt]
    rw [← hpq, hc] at hq
    simp only at hq ⊢
    rw [h1, testBit_or_bit, hq, Bool.true_or]
  · rw [if_neg hpq]; exact hq


/-! ## The build loops only touch the appended region -/

theorem setProbes_append (T : Target) (bits delta : Nat) (pre : List UInt8) :
    ∀ (r h : Nat) (xs : List UInt8),
      setProbes T bits pre.length delta r h (pre ++ xs) =
        ⟨pre ++ (setProbes T bits 0 delta r h xs).dst,
          (setProbes T bits 0 delta r h xs).fault⟩ := by
  intro r
  induction r with
  | zero => intro h xs; rfl
  | succ r ih =>
    intro h xs
    unfold setProbes
    by_cases hb : bits = 0
    · simp [hb]
    · simp only [if_neg hb, Nat.zero_add]
      rw [List.getElem?_append_right (Nat.le_add_right _ _), Nat.add_sub_cancel_left]
      cases hc : xs[h % bits % 2 ^ 32 / 8]? with
      | none => rfl
      | some c =>
        simp only
        have hset : ∀ v : UInt8, (pre ++ xs).set (pre.length + h % bits % 2 ^ 32 / 8) v =
            pre ++ xs.set (h % bits % 2 ^ 32 / 8) v := by
          intro v
          rw [List.set_append, if_neg (by omega), Nat.add_sub_cancel_left]
        rw [hset, ih]

theorem addKeys_append (T : Target) (k bits : Nat) (pre : List UInt8) :
    ∀ (keys : List Slice) (xs : List UInt8),
      addKeys T k bits pre.length keys (pre ++ xs) =
        ⟨pre ++ (addKeys T k bits 0 keys xs).dst, (addKeys T k bits 0 keys xs).fault⟩ := by
  intro keys
  induction keys with
  | nil => intro xs; rfl
  | cons key rest ih =>
    intro xs
    unfold addKeys
    simp only
    rw [setProbes_append]
    cases hf : (setProbes T bits 0 (rotDelta (BloomHash T key)) k (BloomHash T key) xs).fault with
    | some f => rfl
    | none => simp only; rw [ih]

theorem CreateFilter_append (T : Target) (p : BloomFilterPolicy) (keys : List Slice)
    (dst : List UInt8) (level : Nat) :
    CreateFilter T p keys dst level =
      ⟨dst ++ (CreateFilter T p keys [] level).dst, (CreateFilter T p keys [] level).fault⟩ := by
  unfold CreateFilter
  cases p.bits_per_key_per_level_[level]? with
  | none => simp
  | some b =>
    cases p.k_per_level_[level]? with
    | none => simp
    | some k =>
      simp only [List.nil_append, List.length_nil]
      rw [List.append_assoc, addKeys_append]


/-! ## What the build loops do inside the appended region -/

theorem probe_in_range (bytes h : Nat) (hb : 0 < bytes) :
    h % (bytes * 8) % 2 ^ 32 / 8 < bytes := by
  have h1 : h % (bytes * 8) < bytes * 8 := Nat.mod_lt _ (by omega)
  have h2 : h % (bytes * 8) % 2 ^ 32 ≤ h % (bytes * 8) := Nat.mod_le _ _
  omega

theorem setProbes_spec (T : Target) (bytes delta : Nat) (hb : 0 < bytes) :
    ∀ (r h : Nat) (arr : List UInt8), h < 2 ^ 32 → arr.length = bytes + 1 →
      (setProbes T (bytes * 8) 0 delta r h arr).fault = none ∧
      (setProbes T (bytes * 8) 0 delta r h arr).dst.length = bytes + 1 ∧
      (setProbes T (bytes * 8) 0 delta r h arr).dst[bytes]? = arr[bytes]? ∧
      (∀ q, bitAt arr q = true →
        bitAt (setProbes T (bytes * 8) 0 delta r h arr).dst q = true) ∧
      (∀ j < r, bitAt (setProbes T (bytes * 8) 0 delta r h arr).dst
        (hashAt h delta j % (bytes * 8) % 2 ^ 32) = true) := by
  intro r
  induction r with
  | zero =>
    intro h arr _ hlen
    refine ⟨rfl, hlen, rfl, fun q hq => hq, fun j hj => absurd hj (Nat.not_lt_zero j)⟩
  | succ r ih =>
    intro h arr hh hlen
    have hbits : bytes * 8 ≠ 0 := by omega
    have hin := probe_in_range bytes h hb
    have hlt : h % (bytes * 8) % 2 ^ 32 / 8 < arr.length := by omega
    have hget : arr[h % (bytes * 8) % 2 ^ 32 / 8]? =
        some (arr.get ⟨h % (bytes * 8) % 2 ^ 32 / 8, hlt⟩) := by
      rw [List.getElem?_eq_getElem hlt]; rfl
    generalize hc : arr.get ⟨h % (bytes * 8) % 2 ^ 32 / 8, hlt⟩ = c at hget
    have hstep : setProbes T (bytes * 8) 0 delta (r + 1) h arr =
        setProbes T (bytes * 8) 0 delta r ((h + delta) % 2 ^ 32)
          (arr.set (h % (bytes * 8) % 2 ^ 32 / 8)
            (UInt8.ofNat (intOfChar T.charSigned c |||
              (1 <<< (h % (bytes * 8) % 2 ^ 32 % 8))))) := by
      rw [setProbes, if_neg hbits]
      simp only [Nat.zero_add, hget]
    have hr8 : h % (bytes * 8) % 2 ^ 32 % 8 < 8 := Nat.mod_lt _ (by norm_num)
    have h1 := orByte_toNat T.charSigned c _ hr8
    have hlen1 : (arr.set (h % (bytes * 8) % 2 ^ 32 / 8)
        (UInt8.ofNat (intOfChar T.charSigned c |||
          (1 <<< (h % (bytes * 8) % 2 ^ 32 % 8))))).length = bytes + 1 := by
      rw [List.length_set]; exact hlen
    obtain ⟨i1, i2, i3, i4, i5⟩ :=
      ih ((h + delta) % 2 ^ 32) _ (Nat.mod_lt _ (by norm_num)) hlen1
    rw [hstep]
    refine ⟨i1, i2, ?_, ?_, ?_⟩
    · rw [i3, List.getElem?_set, if_neg (by omega)]
    · intro q hq
      exact i4 q (bitAt_set_mono arr _ q c _ hget h1 hq)
    · intro j hj
      cases j with
      | zero =>
        rw [hashAt_zero h delta hh]
        exact i4 _ (bitAt_set_self arr _ c _ hget h1)
      | succ j =>
        rw [← hashAt_succ]
        exact i5 j (by omega)

theorem BloomHash_lt (T : Target) (key : Slice) : BloomHash T key < 2 ^ 32 :=
  Nat.mod_lt _ (by norm_num)

theorem addKeys_spec (T : Target) (k bytes : Nat) (hb : 0 < bytes) :
    ∀ (keys : List Slice) (arr : List UInt8), arr.length = bytes + 1 →
      (addKeys T k (bytes * 8) 0 keys arr).fault = none ∧
      (addKeys T k (bytes * 8) 0 keys arr).dst.length = bytes + 1 ∧
      (addKeys T k (bytes * 8) 0 keys arr).dst[bytes]? = arr[bytes]? ∧
      (∀ q, bitAt arr q = true → bitAt (addKeys T k (bytes * 8) 0 keys arr).dst q = true) ∧
      (∀ key ∈ keys, ∀ j < k, bitAt (addKeys T k (bytes * 8) 0 keys arr).dst
        (hashAt (BloomHash T key) (rotDelta (BloomHash T key)) j % (bytes * 8) % 2 ^ 32)
          = true) := by
  intro keys
  induction keys with
  | nil =>
    intro arr hlen
    refine ⟨rfl, hlen, rfl, fun q hq => hq, ?_⟩
    intro key hkey
    cases hkey
  | cons key rest ih =>
    intro arr hlen
    obtain ⟨s1, s2, s3, s4, s5⟩ :=
      setProbes_spec T bytes (rotDelta (BloomHash T key)) hb k (BloomHash T key) arr
        (BloomHash_lt T key) hlen
    have hstep : addKeys T k (bytes * 8) 0 (key :: rest) arr =
        addKeys T k (bytes * 8) 0 rest
          (setProbes T (bytes * 8) 0 (rotDelta (BloomHash T key)) k (BloomHash T key) arr).dst := by
      rw [addKeys]
      simp only [s1]
    obtain ⟨i1, i2, i3, i4, i5⟩ := ih _ s2
    rw [hstep]
    refine ⟨i1, i2, ?_, ?_, ?_⟩
    · rw [i3, s3]
    · intro q hq
      exact i4 q (s4 q hq)
    · intro key1 hkey1 j hj
      rcases List.mem_cons.1 hkey1 with h1 | h1
      · rw [h1]
        exact i4 _ (s5 j hj)
      · exact i5 key1 h1 j hj

/-! ## What the query loop tests -/

theorem testProbes_true_iff (T : Target) (bits delta : Nat) (array : List UInt8)
    (hb : 0 < bits) (hlen : bits ≤ 8 * array.length) :
    ∀ (r h : Nat), h < 2 ^ 32 →
      (testProbes T bits delta array r h = Except.ok true ↔
        ∀ j < r, bitAt array (hashAt h delta j % bits % 2 ^ 32) = true) := by
  intro r
  induction r with
  | zero =>
    intro h _
    constructor
    · intro _ j hj; exact absurd hj (Nat.not_lt_zero j)
    · intro _; rfl
  | succ r ih =>
    intro h hh
    have hbits : bits ≠ 0 := by omega
    have hin : h % bits % 2 ^ 32 / 8 < array.length := by
      have h1 : h % bits < bits := Nat.mod_lt _ hb
      have h2 : h % bits % 2 ^ 32 ≤ h % bits := Nat.mod_le _ _
      omega
    have hget : array[h % bits % 2 ^ 32 / 8]? =
        some (array.get ⟨h % bits % 2 ^ 32 / 8, hin⟩) := by
      rw [List.getElem?_eq_getElem hin]; rfl
    generalize hc : array.get ⟨h % bits % 2 ^ 32 / 8, hin⟩ = c at hget
    have hr8 : h % bits % 2 ^ 32 % 8 < 8 := Nat.mod_lt _ (by norm_num)
    have hbit : bitAt array (h % bits % 2 ^ 32) = c.toNat.testBit (h % bits % 2 ^ 32 % 8) := by
      unfold bitAt; rw [hget]
    have hand := intOfChar_and T.charSigned c _ hr8
    have hrec := ih ((h + delta) % 2 ^ 32) (Nat.mod_lt _ (by norm_num))
    rw [testProbes, if_neg hbits]
    simp only [hget]
    by_cases hz : intOfChar T.charSigned c &&& (1 <<< (h % bits % 2 ^ 32 % 8)) = 0
    · rw [if_pos hz]
      have hfalse := hand.1 hz
      constructor
      · intro hcontra; cases hcontra
      · intro hall
        have h0 := hall 0 (Nat.succ_pos r)
        rw [hashAt_zero h delta hh, hbit, hfalse] at h0
        cases h0
    · rw [if_neg hz, hrec]
      have htrue : c.toNat.testBit (h % bits % 2 ^ 32 % 8) = true := by
        cases hv : c.toNat.testBit (h % bits % 2 ^ 32 % 8) with
        | true => rfl
        | false => exact absurd (hand.2 hv) hz
      constructor
      · intro hall j hj
        cases j with
        | zero => rw [hashAt_zero h delta hh, hbit, htrue]
        | succ j => rw [← hashAt_succ]; exact hall j (by omega)
      · intro hall j hj
        rw [hashAt_succ]
        exact hall (j + 1) (by omega)


/-! ## The probe table -/

theorem foldl_push_eq_map (f : Nat → Nat) (l : List Nat) :
    ∀ acc : List Nat, l.foldl (fun ks b => ks ++ [f b]) acc = acc ++ l.map f := by
  induction l with
  | nil => intro acc; simp
  | cons b rest ih => intro acc; simp [ih]

theorem k_per_level_eq (bits_per_key : List Nat) :
    (NewBloomFilterPolicy bits_per_key).k_per_level_ = bits_per_key.map probesFor := by
  unfold NewBloomFilterPolicy
  simp [foldl_push_eq_map]

theorem k_per_level_get (bits_per_key : List Nat) (level : Nat) :
    (NewBloomFilterPolicy bits_per_key).k_per_level_[level]? =
      (bits_per_key[level]?).map probesFor := by
  rw [k_per_level_eq, List.getElem?_map]

theorem probesFor_range (b : Nat) : 1 ≤ probesFor b ∧ probesFor b ≤ 30 := by
  rw [probesFor_eq]
  omega

theorem probesFor_byte (s : Bool) (b : Nat) :
    (UInt8.ofNat (probesFor b)).toNat = probesFor b ∧
      sizeOfChar s (UInt8.ofNat (probesFor b)) = probesFor b := by
  have hr := probesFor_range b
  have h1 : (UInt8.ofNat (probesFor b)).toNat = probesFor b := by
    rw [toNat_ofNat_byte]; omega
  refine ⟨h1, ?_⟩
  rw [sizeOfChar_small s _ (by omega), h1]

theorem floor_mul_069 (b : Nat) : ⌊(b : ℚ) * 0.69⌋₊ = b * 69 / 100 := by
  have h : (b : ℚ) * 0.69 = ((b * 69 : ℕ) : ℚ) / ((100 : ℕ) : ℚ) := by
    push_cast; ring
  rw [h, Nat.floor_div_eq_div]

/-! ## The shape of what `CreateFilter` leaves in the string -/

theorem addKeys_zero_bits (T : Target) (k init_size : Nat) (key : Slice) (rest : List Slice)
    (arr : List UInt8) (hk : 1 ≤ k) :
    addKeys T k 0 init_size (key :: rest) arr = ⟨arr, some Fault.modZero⟩ := by
  obtain ⟨k1, rfl⟩ : ∃ k1, k = k1 + 1 := ⟨k - 1, by omega⟩
  rw [addKeys]
  simp [setProbes]

theorem CreateFilter_unfold (T : Target) (bits_per_key : List Nat) (level b : Nat)
    (keys : List Slice) (dst : List UInt8) (hlevel : bits_per_key[level]? = some b) :
    CreateFilter T (NewBloomFilterPolicy bits_per_key) keys dst level =
      ⟨dst ++ (addKeys T (probesFor b) (filterBytes keys.length b * 8) 0 keys
          (List.replicate (filterBytes keys.length b) 0 ++ [UInt8.ofNat (probesFor b)])).dst,
        (addKeys T (probesFor b) (filterBytes keys.length b * 8) 0 keys
          (List.replicate (filterBytes keys.length b) 0 ++ [UInt8.ofNat (probesFor b)])).fault⟩ := by
  have hk := k_per_level_get bits_per_key level
  rw [hlevel] at hk
  have hbits : (NewBloomFilterPolicy bits_per_key).bits_per_key_per_level_[level]? = some b :=
    hlevel
  unfold CreateFilter filterBytes
  rw [hbits, hk]
  simp only [Option.map_some']
  rw [List.append_assoc, addKeys_append]

/-- For a policy made by the constructor and a valid level, the string when the call
ends is the old string followed by the 64-bit byte count of zero-initialised bytes, as
the loops left them, and the byte `probes[level]`; the call ends at a remainder by zero
exactly when that byte count is zero and there is a key, and returns otherwise. -/
theorem CreateFilter_shape (T : Target) (bits_per_key : List Nat) (level b : Nat)
    (keys : List Slice) (dst : List UInt8) (hlevel : bits_per_key[level]? = some b) :
    ∃ blob, (CreateFilter T (NewBloomFilterPolicy bits_per_key) keys dst level).dst = dst ++ blob ∧
      blob.length = filterBytes keys.length b + 1 ∧
      blob[filterBytes keys.length b]? = some (UInt8.ofNat (probesFor b)) ∧
      ((CreateFilter T (NewBloomFilterPolicy bits_per_key) keys dst level).fault =
        if filterBytes keys.length b = 0 ∧ keys ≠ [] then some Fault.modZero else none) := by
  rw [CreateFilter_unfold T bits_per_key level b keys dst hlevel]
  refine ⟨_, rfl, ?_⟩
  have hlen0 : (List.replicate (filterBytes keys.length b) (0 : UInt8) ++
      [UInt8.ofNat (probesFor b)]).length = filterBytes keys.length b + 1 := by simp
  have hlast0 : (List.replicate (filterBytes keys.length b) (0 : UInt8) ++
      [UInt8.ofNat (probesFor b)])[filterBytes keys.length b]? =
        some (UInt8.ofNat (probesFor b)) := by
    rw [List.getElem?_append_right (by simp)]; simp
  by_cases hz : filterBytes keys.length b = 0
  · cases keys with
    | nil =>
      simp only [addKeys]
      refine ⟨hlen0, hlast0, ?_⟩
      simp
    | cons key rest =>
      rw [hz] at hlen0 hlast0 ⊢
      rw [Nat.zero_mul, addKeys_zero_bits T _ 0 key rest _ (probesFor_range b).1]
      refine ⟨hlen0, hlast0, ?_⟩
      simp
  · obtain ⟨a1, a2, a3, _, _⟩ := addKeys_spec T (probesFor b) _ (Nat.pos_of_ne_zero hz) keys _ hlen0
    refine ⟨a2, ?_, ?_⟩
    · rw [a3, hlast0]
    · rw [a1, if_neg (fun h => hz h.1)]

/-- While neither the product of line 43 nor the sum of line 49 wraps, the 64-bit byte
count is `ceil(n * bits_per_key / 8)`. -/
theorem filterBytes_of_fit (n b : Nat) (hfit : n * b + 7 < 2 ^ 64) :
    filterBytes n b = (n * b + 7) / 8 := by
  have h1 : n * b % 2 ^ 64 = n * b := Nat.mod_eq_of_lt (by omega)
  unfold filterBytes
  rw [h1, Nat.mod_eq_of_lt hfit]

theorem filterBytes_zero_right (n : Nat) : filterBytes n 0 = 0 := by
  unfold filterBytes
  rw [Nat.mul_zero]
  rfl

theorem filterBytes_zero_left (b : Nat) : filterBytes 0 b = 0 := by
  unfold filterBytes
  rw [Nat.zero_mul]
  rfl

/-! ## The query on a well-formed blob -/

theorem KeyMayMatch_eq_testProbes (T : Target) (q : BloomFilterPolicy) (key blob : Slice)
    (bytes k : Nat) (c : UInt8) (hb : 0 < bytes) (hlen : blob.length = bytes + 1)
    (hlast : blob[bytes]? = some c) (hk : sizeOfChar T.charSigned c = k) (hk30 : k ≤ 30) :
    KeyMayMatch T q key blob =
      testProbes T (bytes * 8) (rotDelta (BloomHash T key)) blob k (BloomHash T key) := by
  unfold KeyMayMatch
  have h2 : ¬ blob.length < 2 := by omega
  have h3 : blob.length - 1 = bytes := by omega
  simp only [if_neg h2, h3, hlast, hk]
  rw [if_neg (by omega)]

theorem capacity_pos (n b : Nat) (hn : 1 ≤ n) (hb : 1 ≤ b) : 0 < (n * b + 7) / 8 := by
  have h : 1 ≤ n * b := Nat.mul_pos hn hb
  omega

theorem ceil_div_eight (x : Nat) : ⌈(x : ℚ) / 8⌉₊ = (x + 7) / 8 := by
  apply le_antisymm
  · rw [Nat.ceil_le, div_le_iff₀ (by norm_num)]
    have h : x ≤ (x + 7) / 8 * 8 := by omega
    exact_mod_cast h
  · rcases Nat.eq_zero_or_pos ((x + 7) / 8) with h0 | hpos
    · rw [h0]; exact Nat.zero_le _
    · have h1 : (x + 7) / 8 - 1 < ⌈(x : ℚ) / 8⌉₊ := by
        rw [Nat.lt_ceil, lt_div_iff₀ (by norm_num)]
        have h : ((x + 7) / 8 - 1) * 8 < x := by omega
        exact_mod_cast h
      omega

/-! ## Exactly which bits the build sets -/

theorem getElem?_some_lt (array : List UInt8) (i : Nat) (c : UInt8)
    (hc : array[i]? = some c) : i < array.length := by
  rcases Nat.lt_or_ge i array.length with h | h
  · exact h
  · rw [List.getElem?_eq_none h] at hc; cases hc

theorem bitAt_set_iff (array : List UInt8) (p q : Nat) (c c1 : UInt8)
    (hc : array[p / 8]? = some c) (h1 : c1.toNat = c.toNat ||| (1 <<< (p % 8))) :
    bitAt (array.set (p / 8) c1) q = true ↔ bitAt array q = true ∨ q = p := by
  have hlt := getElem?_some_lt array _ c hc
  unfold bitAt
  rw [List.getElem?_set]
  by_cases hpq : p / 8 = q / 8
  · rw [if_pos hpq, if_pos hlt, ← hpq, hc]
    simp only
    rw [h1, testBit_or_bit, Bool.or_eq_true, decide_eq_true_eq]
    constructor
    · rintro (h | h)
      · exact Or.inl h
      · exact Or.inr (by omega)
    · rintro (h | h)
      · exact Or.inl h
      · exact Or.inr (by omega)
  · rw [if_neg hpq]
    constructor
    · intro h; exact Or.inl h
    · rintro (h | h)
      · exact h
      · exact absurd (by rw [h]) hpq

theorem setProbes_exact (T : Target) (bytes delta : Nat) (hb : 0 < bytes) :
    ∀ (r h : Nat) (arr : List UInt8), h < 2 ^ 32 → arr.length = bytes + 1 →
      ∀ q, bitAt (setProbes T (bytes * 8) 0 delta r h arr).dst q = true ↔
        bitAt arr q = true ∨ ∃ j < r, q = hashAt h delta j % (bytes * 8) % 2 ^ 32 := by
  intro r
  induction r with
  | zero =>
    intro h arr _ _ q
    constructor
    · intro hq; exact Or.inl hq
    · rintro (hq | ⟨j, hj, _⟩)
      · exact hq
      · exact absurd hj (Nat.not_lt_zero j)
  | succ r ih =>
    intro h arr hh hlen q
    have hbits : bytes * 8 ≠ 0 := by omega
    have hin := probe_in_range bytes h hb
    have hlt : h % (bytes * 8) % 2 ^ 32 / 8 < arr.length := by omega
    have hget : arr[h % (bytes * 8) % 2 ^ 32 / 8]? =
        some (arr.get ⟨h % (bytes * 8) % 2 ^ 32 / 8, hlt⟩) := by
      rw [List.getElem?_eq_getElem hlt]; rfl
    generalize hc : arr.get ⟨h % (bytes * 8) % 2 ^ 32 / 8, hlt⟩ = c at hget
    have hstep : setProbes T (bytes * 8) 0 delta (r + 1) h arr =
        setProbes T (bytes * 8) 0 delta r ((h + delta) % 2 ^ 32)
          (arr.set (h % (bytes * 8) % 2 ^ 32 / 8)
            (UInt8.ofNat (intOfChar T.charSigned c |||
              (1 <<< (h % (bytes * 8) % 2 ^ 32 % 8))))) := by
      rw [setProbes, if_neg hbits]
      simp only [Nat.zero_add, hget]
    have hr8 : h % (bytes * 8) % 2 ^ 32 % 8 < 8 := Nat.mod_lt _ (by norm_num)
    have h1 := orByte_toNat T.charSigned c _ hr8
    have hlen1 : (arr.set (h % (bytes * 8) % 2 ^ 32 / 8)
        (UInt8.ofNat (intOfChar T.charSigned c |||
          (1 <<< (h % (bytes * 8) % 2 ^ 32 % 8))))).length = bytes + 1 := by
      rw [List.length_set]; exact hlen
    rw [hstep, ih ((h + delta) % 2 ^ 32) _ (Nat.mod_lt _ (by norm_num)) hlen1 q,
      bitAt_set_iff arr _ q c _ hget h1]
    constructor
    · rintro ((hq | hq) | ⟨j, hj, hq⟩)
      · exact Or.inl hq
      · exact Or.inr ⟨0, Nat.succ_pos r, by rw [hashAt_zero h delta hh]; exact hq⟩
      · exact Or.inr ⟨j + 1, by omega, by rw [← hashAt_succ]; exact hq⟩
    · rintro (hq | ⟨j, hj, hq⟩)
      · exact Or.inl (Or.inl hq)
      · cases j with
        | zero =>
          rw [hashAt_zero h delta hh] at hq
          exact Or.inl (Or.inr hq)
        | succ j =>
          rw [← hashAt_succ] at hq
          exact Or.inr ⟨j, by omega, hq⟩

theorem addKeys_exact (T : Target) (k bytes : Nat) (hb : 0 < bytes) :
    ∀ (keys : List Slice) (arr : List UInt8), arr.length = bytes + 1 →
      ∀ q, bitAt (addKeys T k (bytes * 8) 0 keys arr).dst q = true ↔
        bitAt arr q = true ∨ ∃ key ∈ keys, ∃ j < k,
          q = hashAt (BloomHash T key) (rotDelta (BloomHash T key)) j
            % (bytes * 8) % 2 ^ 32 := by
  intro keys
  induction keys with
  | nil =>
    intro arr _ q
    constructor
    · intro hq; exact Or.inl hq
    · rintro (hq | ⟨key, hkey, _⟩)
      · exact hq
      · cases hkey
  | cons key rest ih =>
    intro arr hlen q
    obtain ⟨s1, s2, _, _, _⟩ :=
      setProbes_spec T bytes (rotDelta (BloomHash T key)) hb k (BloomHash T key) arr
        (BloomHash_lt T key) hlen
    have hstep : addKeys T k (bytes * 8) 0 (key :: rest) arr =
        addKeys T k (bytes * 8) 0 rest
          (setProbes T (bytes * 8) 0 (rotDelta (BloomHash T key)) k (BloomHash T key) arr).dst := by
      rw [addKeys]
      simp only [s1]
    rw [hstep, ih _ s2 q,
      setProbes_exact T bytes (rotDelta (BloomHash T key)) hb k (BloomHash T key) arr
        (BloomHash_lt T key) hlen q]
    constructor
    · rintro ((hq | ⟨j, hj, hq⟩) | ⟨key1, hkey1, j, hj, hq⟩)
      · exact Or.inl hq
      · exact Or.inr ⟨key, List.mem_cons_self _ _, j, hj, hq⟩
      · exact Or.inr ⟨key1, List.mem_cons_of_mem _ hkey1, j, hj, hq⟩
    · rintro (hq | ⟨key1, hkey1, j, hj, hq⟩)
      · exact Or.inl (Or.inl hq)
      · rcases List.mem_cons.1 hkey1 with h1 | h1
        · rw [h1] at hq
          exact Or.inl (Or.inr ⟨j, hj, hq⟩)
        · exact Or.inr ⟨key1, h1, j, hj, hq⟩

theorem hashAt_lt (h delta j : Nat) : hashAt h delta j < 2 ^ 32 :=
  Nat.mod_lt _ (by norm_num)

theorem probe_pos_eq (h delta j bits : Nat) :
    hashAt h delta j % bits % 2 ^ 32 = (h + j * delta) % 2 ^ 32 % bits := by
  have h1 := hashAt_lt h delta j
  have h2 : hashAt h delta j % bits ≤ hashAt h delta j := Nat.mod_le _ _
  rw [Nat.mod_eq_of_lt (by omega)]
  rfl

theorem bitAt_fresh (bytes : Nat) (c : UInt8) (p : Nat) (hp : p < bytes * 8) :
    bitAt (List.replicate bytes (0 : UInt8) ++ [c]) p = false := by
  have h1 : p / 8 < (List.replicate bytes (0 : UInt8)).length := by
    rw [List.length_replicate]; omega
  unfold bitAt
  rw [List.getElem?_append_left h1, List.getElem?_replicate, if_pos (by omega)]
  simp only
  exact Nat.zero_testBit _

/-- Two byte strings of the same length with the same bits are equal. -/
theorem bytes_ext (l1 l2 : List UInt8) (hlen : l1.length = l2.length)
    (hbits : ∀ q, bitAt l1 q = bitAt l2 q) : l1 = l2 := by
  apply List.ext_getElem?
  intro n
  rcases Nat.lt_or_ge n l1.length with hn | hn
  · have hn2 : n < l2.length := by omega
    rw [List.getElem?_eq_getElem hn, List.getElem?_eq_getElem hn2]
    congr 1
    apply UInt8.ext
    apply Nat.eq_of_testBit_eq
    intro i
    rcases Nat.lt_or_ge i 8 with hi | hi
    · have hq := hbits (n * 8 + i)
      unfold bitAt at hq
      have hd : (n * 8 + i) / 8 = n := by omega
      have hm : (n * 8 + i) % 8 = i := by omega
      rw [hd, hm, List.getElem?_eq_getElem hn, List.getElem?_eq_getElem hn2] at hq
      exact hq
    · have hpow : (2 : Nat) ^ 8 ≤ 2 ^ i := Nat.pow_le_pow_right (by norm_num) hi
      have hb1 : (l1[n]).toNat < 2 ^ i := Nat.lt_of_lt_of_le (toNat_lt_byte _) hpow
      have hb2 : (l2[n]).toNat < 2 ^ i := Nat.lt_of_lt_of_le (toNat_lt_byte _) hpow
      rw [Nat.testBit_lt_two_pow hb1, Nat.testBit_lt_two_pow hb2]
  · rw [List.getElem?_eq_none hn, List.getElem?_eq_none (by omega)]

/-! ## The query loop never faults, and what it reads -/

theorem testProbes_total (T : Target) (bits delta : Nat) (array : List UInt8)
    (hb : 0 < bits) (hlen : bits ≤ 8 * array.length) :
    ∀ (r h : Nat), ∃ b, testProbes T bits delta array r h = Except.ok b := by
  intro r
  induction r with
  | zero => intro h; exact ⟨true, rfl⟩
  | succ r ih =>
    intro h
    have hbits : bits ≠ 0 := by omega
    have hin : h % bits % 2 ^ 32 / 8 < array.length := by
      have h1 : h % bits < bits := Nat.mod_lt _ hb
      have h2 : h % bits % 2 ^ 32 ≤ h % bits := Nat.mod_le _ _
      omega
    rw [testProbes, if_neg hbits]
    simp only [List.getElem?_eq_getElem hin]
    split
    · exact ⟨false, rfl⟩
    · exact ih _

theorem testProbes_false_iff (T : Target) (bits delta : Nat) (array : List UInt8)
    (hb : 0 < bits) (hlen : bits ≤ 8 * array.length) (r h : Nat) (hh : h < 2 ^ 32) :
    testProbes T bits delta array r h = Except.ok false ↔
      ∃ j < r, bitAt array (hashAt h delta j % bits % 2 ^ 32) = false := by
  have htrue := testProbes_true_iff T bits delta array hb hlen r h hh
  obtain ⟨b, hres⟩ := testProbes_total T bits delta array hb hlen r h
  rw [hres] at htrue ⊢
  cases b with
  | true =>
    constructor
    · intro hcontra; cases hcontra
    · rintro ⟨j, hj, hbit⟩
      rw [htrue.1 rfl j hj] at hbit
      cases hbit
  | false =>
    constructor
    · intro _
      by_contra hno
      have hall : ∀ j < r, bitAt array (hashAt h delta j % bits % 2 ^ 32) = true := by
        intro j hj
        cases hv : bitAt array (hashAt h delta j % bits % 2 ^ 32) with
        | true => rfl
        | false => exact absurd ⟨j, hj, hv⟩ hno
      have := htrue.2 hall
      cases this
    · intro _; rfl

theorem testProbesLog_fst (T : Target) (bits delta : Nat) (array : List UInt8) :
    ∀ (r h : Nat), (testProbesLog T bits delta array r h).1 = testProbes T bits delta array r h := by
  intro r
  induction r with
  | zero => intro h; rfl
  | succ r ih =>
    intro h
    rw [testProbesLog, testProbes]
    by_cases hbits : bits = 0
    · rw [if_pos hbits, if_pos hbits]
    · rw [if_neg hbits, if_neg hbits]
      simp only
      cases array[h % bits % 2 ^ 32 / 8]? with
      | none => rfl
      | some c =>
        simp only
        split
        · rfl
        · exact ih _

theorem testProbesLog_reads (T : Target) (bytes delta : Nat) (array : List UInt8)
    (hb : 0 < bytes) :
    ∀ (r h : Nat), ∀ i ∈ (testProbesLog T (bytes * 8) delta array r h).2, i < bytes := by
  intro r
  induction r with
  | zero => intro h i hi; cases hi
  | succ r ih =>
    intro h i hi
    have hbits : bytes * 8 ≠ 0 := by omega
    have hin := probe_in_range bytes h hb
    rw [testProbesLog, if_neg hbits] at hi
    simp only at hi
    cases hc : array[h % (bytes * 8) % 2 ^ 32 / 8]? with
    | none =>
      rw [hc] at hi
      simp only [List.mem_singleton] at hi
      omega
    | some c =>
      rw [hc] at hi
      simp only at hi
      split at hi
      · simp only [List.mem_singleton] at hi
        omega
      · rcases List.mem_cons.1 hi with h1 | h1
        · omega
        · exact ih _ i h1

theorem KeyMayMatchLog_fst (T : Target) (p : BloomFilterPolicy) (key blob : Slice) :
    (KeyMayMatchLog T p key blob).1 = KeyMayMatch T p key blob := by
  unfold KeyMayMatchLog KeyMayMatch
  simp only
  split
  · rfl
  · cases blob[blob.length - 1]? with
    | none => rfl
    | some c =>
      simp only
      split
      · rfl
      · exact testProbesLog_fst T _ _ _ _ _

theorem KeyMayMatchLog_eq (T : Target) (q : BloomFilterPolicy) (key blob : Slice)
    (bytes k : Nat) (c : UInt8) (hb : 0 < bytes) (hlen : blob.length = bytes + 1)
    (hlast : blob[bytes]? = some c) (hk : sizeOfChar T.charSigned c = k) (hk30 : k ≤ 30) :
    KeyMayMatchLog T q key blob =
      testProbesLog T (bytes * 8) (rotDelta (BloomHash T key)) blob k (BloomHash T key) := by
  unfold KeyMayMatchLog
  have h2 : ¬ blob.length < 2 := by omega
  have h3 : blob.length - 1 = bytes := by omega
  simp only [if_neg h2, h3, hlast, hk]
  rw [if_neg (by omega)]

/-! ## The second hash is a rotation -/

theorem bitsToNat_lt (f : Nat → Bool) : ∀ n, bitsToNat f n < 2 ^ n := by
  intro n
  induction n with
  | zero => simp [bitsToNat]
  | succ n ih =>
    rw [bitsToNat, pow_succ]
    split <;> omega

theorem bitsToNat_testBit (f : Nat → Bool) :
    ∀ n i, (bitsToNat f n).testBit i = (decide (i < n) && f i) := by
  intro n
  induction n with
  | zero => intro i; simp [bitsToNat]
  | succ n ih =>
    intro i
    have hlt := bitsToNat_lt f n
    rw [bitsToNat]
    cases hf : f n with
    | false =>
      simp only [Bool.false_eq_true, if_false, Nat.add_zero]
      rw [ih i]
      rcases Nat.lt_or_ge i n with h | h
      · simp [h, Nat.lt_succ_of_lt h]
      · rcases Nat.eq_or_lt_of_le h with h1 | h1
        · subst h1; simp [hf]
        · have h2 : ¬ i < n := by omega
          have h3 : ¬ i < n + 1 := by omega
          simp [h2, h3]
    | true =>
      simp only [if_true]
      rw [Nat.add_comm]
      rcases Nat.lt_trichotomy i n with h | h | h
      · rw [Nat.testBit_two_pow_add_gt h, ih i]
        simp [h, Nat.lt_succ_of_lt h]
      · subst h
        rw [Nat.testBit_two_pow_add_eq, Nat.testBit_lt_two_pow hlt]
        simp [hf]
      · have hpow : (2 : Nat) ^ (n + 1) ≤ 2 ^ i := Nat.pow_le_pow_right (by norm_num) h
        have hsum : 2 ^ n + bitsToNat f n < 2 ^ i := by
          rw [pow_succ] at hpow; omega
        rw [Nat.testBit_lt_two_pow hsum]
        have h3 : ¬ i < n + 1 := by omega
        simp [h3]

theorem rotDelta_testBit (h : Nat) (hh : h < 2 ^ 32) (i : Nat) :
    (rotDelta h).testBit i = (decide (i < 32) && h.testBit ((i + 17) % 32)) := by
  have hhigh : ∀ j, 32 ≤ j → h.testBit j = false := by
    intro j hj
    exact Nat.testBit_lt_two_pow
      (Nat.lt_of_lt_of_le hh (Nat.pow_le_pow_right (by norm_num) hj))
  unfold rotDelta
  rw [Nat.testBit_or, Nat.testBit_shiftRight, Nat.testBit_mod_two_pow, Nat.testBit_shiftLeft]
  rcases Nat.lt_or_ge i 15 with h1 | h1
  · have e1 : (i + 17) % 32 = 17 + i := by omega
    have e2 : ¬ i ≥ 15 := by omega
    have e3 : i < 32 := by omega
    simp [e1, e2, e3]
  · rcases Nat.lt_or_ge i 32 with h2 | h2
    · have e1 : (i + 17) % 32 = i - 15 := by omega
      rw [hhigh (17 + i) (by omega), e1]
      simp [h1, h2]
    · have e3 : ¬ i < 32 := by omega
      rw [hhigh (17 + i) (by omega)]
      simp [e3]

theorem rotDelta_lt (h : Nat) (hh : h < 2 ^ 32) : rotDelta h < 2 ^ 32 := by
  unfold rotDelta
  apply Nat.or_lt_two_pow
  · rw [Nat.shiftRight_eq_div_pow]
    exact Nat.lt_of_le_of_lt (Nat.div_le_self _ _) hh
  · exact Nat.mod_lt _ (by norm_num)

theorem rotDelta_eq_rotateRight (h : Nat) (hh : h < 2 ^ 32) :
    rotDelta h = rotateRight32 h 17 := by
  apply Nat.eq_of_testBit_eq
  intro i
  rw [rotDelta_testBit h hh i]
  unfold rotateRight32
  rw [bitsToNat_testBit]

theorem rotateLeft_15_eq_rotateRight_17 (h : Nat) : rotateLeft32 h 15 = rotateRight32 h 17 := rfl

/-! ## The claims -/

/-- C1: the code departs from the claim at zero capacity.  At a level whose bits-per-key
value is 0, `CreateFilter` on one key appends the single byte `probes[level] = 1` and
then takes the hash modulo zero; that one-byte blob matches no key, the inserted one
included. -/
theorem create_then_match_zero_capacity (T : Target) (q : BloomFilterPolicy) (key : Slice)
    (dst : List UInt8) :
    CreateFilter T (NewBloomFilterPolicy [0]) [key] dst 0 = ⟨dst ++ [1], some Fault.modZero⟩ ∧
      KeyMayMatch T q key [1] = Except.ok false := by
  constructor
  · rw [CreateFilter_unfold T [0] 0 0 [key] dst rfl, filterBytes_zero_right]
    have hp : probesFor 0 = 1 := by decide
    rw [hp, Nat.zero_mul, addKeys_zero_bits T 1 0 key [] _ (Nat.le_refl 1)]
    rfl
  · rfl

/-- C2, as it is written, fails: with `bits_per_key = 6148914691236517206` and three
keys the 64-bit product of line 43 is `2 ^ 64 + 2`, which wraps to 2; `CreateFilter`
returns having appended a blob of 2 bytes to the empty string, whose bit count
`(len - 1) * 8 = 8` is not `8 * ceil(n * bits_per_key / 8) = 2 ^ 64 + 8`. -/
theorem bit_count_overflow_counterexample :
    ([6148914691236517206] : List Nat)[0]? = some 6148914691236517206 ∧
      1 ≤ 6148914691236517206 ∧
      ([1] : Slice) ∈ ([[1], [2], [3]] : List Slice) ∧
      (CreateFilter exampleTarget (NewBloomFilterPolicy [6148914691236517206])
        [[1], [2], [3]] [] 0).fault = none ∧
      ((CreateFilter exampleTarget (NewBloomFilterPolicy [6148914691236517206])
        [[1], [2], [3]] [] 0).dst.length - 1) * 8 = 8 ∧
      8 * ⌈(((([[1], [2], [3]] : List Slice).length * 6148914691236517206 : ℕ)) : ℚ) / 8⌉₊
        = 18446744073709551624 := by
  have hfb : filterBytes ([[1], [2], [3]] : List Slice).length 6148914691236517206 = 1 := by
    decide
  obtain ⟨blob, h1, h2, _, h4⟩ := CreateFilter_shape exampleTarget [6148914691236517206] 0
    6148914691236517206 [[1], [2], [3]] [] rfl
  rw [hfb] at h2 h4
  refine ⟨rfl, by norm_num, by simp, ?_, ?_, ?_⟩
  · rw [h4]; simp
  · rw [h1, List.nil_append, h2]
  · rw [ceil_div_eight]; rfl

/-- C2, amended: for a policy made by the constructor, a valid level with
`bits_per_key ≥ 1`, a key list with `n * bits_per_key ≤ 2 ^ 64 - 8` (so that the 64-bit
arithmetic of lines 43 and 49 does not wrap) and a key of the list, `CreateFilter`
returns normally having appended a blob whose last byte is `probes[level]` (which the
query reads back as the same `k`), whose bit count `(len - 1) * 8` is
`8 * ceil(n * bits_per_key / 8)`, in which every probe position of the key is set, and
on which `KeyMayMatch` (under any policy) answers `true`. -/
theorem no_false_negative_same_parameters (T : Target) (q : BloomFilterPolicy)
    (bits_per_key : List Nat) (level b : Nat) (keys : List Slice) (key : Slice)
    (dst : List UInt8) (hlevel : bits_per_key[level]? = some b) (hb : 1 ≤ b)
    (hfit : keys.length * b + 7 < 2 ^ 64) (hkey : key ∈ keys) :
    ∃ blob k,
      CreateFilter T (NewBloomFilterPolicy bits_per_key) keys dst level = ⟨dst ++ blob, none⟩ ∧
      (NewBloomFilterPolicy bits_per_key).k_per_level_[level]? = some k ∧
      blob.getLast? = some (UInt8.ofNat k) ∧
      sizeOfChar T.charSigned (UInt8.ofNat k) = k ∧
      (blob.length - 1) * 8 = 8 * ⌈((keys.length * b : ℕ) : ℚ) / 8⌉₊ ∧
      (∀ j < k, bitAt blob (hashAt (BloomHash T key) (rotDelta (BloomHash T key)) j
        % ((blob.length - 1) * 8) % 2 ^ 32) = true) ∧
      KeyMayMatch T q key blob = Except.ok true := by
  have hn : 1 ≤ keys.length := List.length_pos_of_mem hkey
  have hpos := capacity_pos keys.length b hn hb
  have hfb := filterBytes_of_fit keys.length b hfit
  have hlen0 : (List.replicate ((keys.length * b + 7) / 8) (0 : UInt8) ++
      [UInt8.ofNat (probesFor b)]).length = (keys.length * b + 7) / 8 + 1 := by simp
  have hlast0 : (List.replicate ((keys.length * b + 7) / 8) (0 : UInt8) ++
      [UInt8.ofNat (probesFor b)])[(keys.length * b + 7) / 8]? =
        some (UInt8.ofNat (probesFor b)) := by
    rw [List.getElem?_append_right (by simp)]; simp
  obtain ⟨a1, a2, a3, _, a5⟩ := addKeys_spec T (probesFor b) _ hpos keys _ hlen0
  rw [hlast0] at a3
  have hk := k_per_level_get bits_per_key level
  rw [hlevel] at hk
  have hbyte := probesFor_byte T.charSigned b
  have hsub : (addKeys T (probesFor b) ((keys.length * b + 7) / 8 * 8) 0 keys
      (List.replicate ((keys.length * b + 7) / 8) 0 ++ [UInt8.ofNat (probesFor b)])).dst.length
        - 1 = (keys.length * b + 7) / 8 := by omega
  refine ⟨(addKeys T (probesFor b) ((keys.length * b + 7) / 8 * 8) 0 keys
      (List.replicate ((keys.length * b + 7) / 8) 0 ++ [UInt8.ofNat (probesFor b)])).dst,
    probesFor b, ?_, hk, ?_, hbyte.2, ?_, ?_, ?_⟩
  · rw [CreateFilter_unfold T bits_per_key level b keys dst hlevel, hfb, a1]
  · rw [List.getLast?_eq_getElem?, hsub, a3]
  · rw [hsub, ceil_div_eight, Nat.mul_comm]
  · rw [hsub]
    exact a5 key hkey
  · rw [KeyMayMatch_eq_testProbes T q key _ _ (probesFor b) _ hpos a2 a3 hbyte.2
      (probesFor_range b).2]
    exact (testProbes_true_iff T _ _ _ (by omega) (by omega) _ _ (BloomHash_lt T key)).2
      (a5 key hkey)

/-- C3: on a blob of length 0 or 1 `KeyMayMatch` answers `false`, whatever the key, the
policy and the byte. -/
theorem degenerate_blob_never_matches (T : Target) (q : BloomFilterPolicy) (key blob : Slice)
    (hlen : blob.length < 2) : KeyMayMatch T q key blob = Except.ok false := by
  unfold KeyMayMatch
  simp only [if_pos hlen]

/-- C4: on a blob of length at least 2 whose last byte, as an unsigned 8-bit integer, is
greater than 30, `KeyMayMatch` answers `true`, whatever the other bytes, the key, the
policy and the signedness of `char`. -/
theorem reserved_encoding_matches (T : Target) (q : BloomFilterPolicy) (key blob : Slice)
    (c : UInt8) (hlen : 2 ≤ blob.length) (hlast : blob.getLast? = some c)
    (hc : 30 < c.toNat) : KeyMayMatch T q key blob = Except.ok true := by
  unfold KeyMayMatch
  rw [List.getLast?_eq_getElem?] at hlast
  have h2 : ¬ blob.length < 2 := by omega
  simp only [if_neg h2, hlast]
  rw [if_pos (sizeOfChar_gt T.charSigned c hc)]

/-- C5: `KeyMayMatch` gives the same answer under any two policy objects, so the answer
is a function of the key and of the blob alone; and on a blob of length at least 2 whose
last byte converts to a `k ≤ 30`, the answer is that of the probe loop run `k` times with
modulus `(len - 1) * 8`: the probe count is the blob's last byte, not an entry of the
reader's table. -/
theorem query_ignores_configuration (T : Target) (A B : BloomFilterPolicy)
    (key blob : Slice) :
    KeyMayMatch T A key blob = KeyMayMatch T B key blob ∧
      (∀ c : UInt8, 2 ≤ blob.length → blob.getLast? = some c →
        sizeOfChar T.charSigned c ≤ 30 →
        KeyMayMatch T A key blob =
          testProbes T ((blob.length - 1) * 8) (rotDelta (BloomHash T key)) blob
            (sizeOfChar T.charSigned c) (BloomHash T key)) := by
  refine ⟨rfl, ?_⟩
  intro c hlen hlast hk
  rw [List.getLast?_eq_getElem?] at hlast
  exact KeyMayMatch_eq_testProbes T A key blob (blob.length - 1) _ c (by omega) (by omega)
    hlast rfl hk

/-- C6, as it is written, fails: with `bits_per_key = 6148914691236517206` and three
keys the 64-bit product of line 43 is `2 ^ 64 + 2`, which wraps to 2; `CreateFilter`
returns having grown the empty string by 2 bytes, not by
`ceil(n * bits_per_key / 8) + 1 = 2 ^ 61 + 2`. -/
theorem blob_size_overflow_counterexample :
    ([6148914691236517206] : List Nat)[0]? = some 6148914691236517206 ∧
      (CreateFilter exampleTarget (NewBloomFilterPolicy [6148914691236517206])
        [[1], [2], [3]] [] 0).fault = none ∧
      (CreateFilter exampleTarget (NewBloomFilterPolicy [6148914691236517206])
        [[1], [2], [3]] [] 0).dst.length = 2 ∧
      ⌈(((([[1], [2], [3]] : List Slice).length * 6148914691236517206 : ℕ)) : ℚ) / 8⌉₊ + 1
        = 2305843009213693954 := by
  have hfb : filterBytes ([[1], [2], [3]] : List Slice).length 6148914691236517206 = 1 := by
    decide
  obtain ⟨blob, h1, h2, _, h4⟩ := CreateFilter_shape exampleTarget [6148914691236517206] 0
    6148914691236517206 [[1], [2], [3]] [] rfl
  rw [hfb] at h2 h4
  refine ⟨rfl, ?_, ?_, ?_⟩
  · rw [h4]; simp
  · rw [h1, List.nil_append, h2]
  · rw [ceil_div_eight]; rfl

/-- C6, amended: for a policy made by the constructor, a valid level with bits-per-key
value `b`, a key list of length `n` with `n * b ≤ 2 ^ 64 - 8` (so that the 64-bit
arithmetic of lines 43 and 49 does not wrap) that is empty unless `b ≥ 1`, and any
initial string, `CreateFilter` runs its loops on the old string followed by
`ceil(n * b / 8)` zero bytes and the byte `probes[level]`, with modulus
`8 * ceil(n * b / 8)`, and returns; the string it returns is longer than the old one by
exactly `ceil(n * b / 8) + 1` bytes and ends with the byte `probes[level]`; and the
modulus is a multiple of 8, at least `n * b` and less than `n * b + 8`. -/
theorem blob_layout_and_size (T : Target) (bits_per_key : List Nat) (level b : Nat)
    (keys : List Slice) (dst : List UInt8) (hlevel : bits_per_key[level]? = some b)
    (hfit : keys.length * b + 7 < 2 ^ 64) (hret : keys = [] ∨ 1 ≤ b) :
    ∃ k bytes, (NewBloomFilterPolicy bits_per_key).k_per_level_[level]? = some k ∧
      bytes = ⌈((keys.length * b : ℕ) : ℚ) / 8⌉₊ ∧
      CreateFilter T (NewBloomFilterPolicy bits_per_key) keys dst level =
        addKeys T k (bytes * 8) dst.length keys
          (dst ++ List.replicate bytes 0 ++ [UInt8.ofNat k]) ∧
      (CreateFilter T (NewBloomFilterPolicy bits_per_key) keys dst level).fault = none ∧
      (CreateFilter T (NewBloomFilterPolicy bits_per_key) keys dst level).dst.length =
        dst.length + (bytes + 1) ∧
      (CreateFilter T (NewBloomFilterPolicy bits_per_key) keys dst level).dst.getLast? =
        some (UInt8.ofNat k) ∧
      (UInt8.ofNat k).toNat = k ∧
      8 ∣ bytes * 8 ∧ keys.length * b ≤ bytes * 8 ∧ bytes * 8 < keys.length * b + 8 := by
  have hfb := filterBytes_of_fit keys.length b hfit
  obtain ⟨blob, h1, h2, h3, h4⟩ := CreateFilter_shape T bits_per_key level b keys dst hlevel
  rw [hfb] at h2 h3 h4
  have hk := k_per_level_get bits_per_key level
  rw [hlevel] at hk
  have hbits : (NewBloomFilterPolicy bits_per_key).bits_per_key_per_level_[level]? = some b :=
    hlevel
  refine ⟨probesFor b, (keys.length * b + 7) / 8, hk, (ceil_div_eight _).symm, ?_, ?_, ?_, ?_,
    (probesFor_byte T.charSigned b).1, Nat.dvd_mul_left 8 _, by omega, by omega⟩
  · unfold filterBytes at hfb
    unfold CreateFilter
    rw [hbits, hk]
    simp only [Option.map_some']
    rw [hfb]
  · rw [h4, if_neg]
    rintro ⟨hz, hne⟩
    rcases hret with he | hb
    · exact hne he
    · have := capacity_pos keys.length b (List.length_pos.2 hne) hb
      omega
  · rw [h1, List.length_append, h2]
  · rw [h1, List.getLast?_eq_getElem?, List.length_append, h2,
      List.getElem?_append_right (by omega)]
    rw [show dst.length + ((keys.length * b + 7) / 8 + 1) - 1 - dst.length =
      (keys.length * b + 7) / 8 by omega]
    exact h3

/-- C7: for every list of bits-per-key values the constructor builds a probe table of the
same length, every entry of which is between 1 and 30; a bits-per-key value of 0 gives
the probe count 1. -/
theorem probe_table_invariant (bits_per_key : List Nat) :
    (NewBloomFilterPolicy bits_per_key).bits_per_key_per_level_ = bits_per_key ∧
      (NewBloomFilterPolicy bits_per_key).k_per_level_.length =
        (NewBloomFilterPolicy bits_per_key).bits_per_key_per_level_.length ∧
      (∀ level k : Nat, (NewBloomFilterPolicy bits_per_key).k_per_level_[level]? = some k →
        1 ≤ k ∧ k ≤ 30) ∧
      (∀ level : Nat, bits_per_key[level]? = some 0 →
        (NewBloomFilterPolicy bits_per_key).k_per_level_[level]? = some 1) := by
  refine ⟨rfl, ?_, ?_, ?_⟩
  · rw [k_per_level_eq, List.length_map]; rfl
  · intro level k hk
    rw [k_per_level_get bits_per_key level] at hk
    cases hb : bits_per_key[level]? with
    | none => rw [hb] at hk; cases hk
    | some b =>
      rw [hb] at hk
      cases hk
      exact probesFor_range b
  · intro level h0
    rw [k_per_level_get bits_per_key level, h0]
    rfl

/-- C8: the probe count of a level with bits-per-key value `b` is
`clamp(floor(b * 0.69), 1, 30)`: the `double` computation of the constructor agrees with
the exact one after clamping.  It is 1 for `b = 0`, 6 for `b = 10`, 30 for `b = 1000`,
it is 1 exactly when `b ≤ 2` and 30 exactly when `b ≥ 44`. -/
theorem probe_count_derivation :
    (∀ (bits_per_key : List Nat) (level b : Nat), bits_per_key[level]? = some b →
      (NewBloomFilterPolicy bits_per_key).k_per_level_[level]? =
        some (max 1 (min 30 ⌊(b : ℚ) * 0.69⌋₊))) ∧
      (NewBloomFilterPolicy [0]).k_per_level_ = [1] ∧
      (NewBloomFilterPolicy [10]).k_per_level_ = [6] ∧
      (NewBloomFilterPolicy [1000]).k_per_level_ = [30] ∧
      (∀ b, probesFor b = 1 ↔ b ≤ 2) ∧ (∀ b, probesFor b = 30 ↔ 44 ≤ b) := by
  refine ⟨?_, ?_, ?_, ?_, ?_, ?_⟩
  · intro bits_per_key level b hb
    rw [k_per_level_get bits_per_key level, hb, floor_mul_069, ← probesFor_eq]
    rfl
  · rw [k_per_level_eq]; decide
  · rw [k_per_level_eq]; decide
  · rw [k_per_level_eq, List.map_singleton, probesFor_of_ge 1000 (by norm_num)]
  · intro b; rw [probesFor_eq]; omega
  · intro b; rw [probesFor_eq]; omega

/-- C9: the code departs from the claim where the 64-bit bit count is zero.  With
`bits_per_key = 2 ^ 62` and four keys the product of line 43 is `2 ^ 64`, which wraps to
0; started on the string `[9]`, `CreateFilter` appends the byte `probes[0] = 30` and
stops at the remainder by zero of line 63: it does not return, on this string or on the
empty one. -/
theorem append_only_build_stops_at_modulo_zero :
    ([4611686018427387904] : List Nat)[0]? = some 4611686018427387904 ∧
      1 ≤ 4611686018427387904 ∧
      CreateFilter exampleTarget (NewBloomFilterPolicy [4611686018427387904])
        [[1], [2], [3], [4]] [9] 0 = ⟨[9, 30], some Fault.modZero⟩ ∧
      (CreateFilter exampleTarget (NewBloomFilterPolicy [4611686018427387904])
        [[1], [2], [3], [4]] [] 0).fault = some Fault.modZero := by
  have hfb : filterBytes ([[1], [2], [3], [4]] : List Slice).length 4611686018427387904 = 0 := by
    decide
  refine ⟨rfl, by norm_num, ?_, ?_⟩
  · rw [CreateFilter_unfold exampleTarget [4611686018427387904] 0 4611686018427387904
      [[1], [2], [3], [4]] [9] rfl, hfb, probesFor_of_ge 4611686018427387904 (by norm_num),
      Nat.zero_mul, addKeys_zero_bits exampleTarget 30 0 [1] [[2], [3], [4]] _ (by norm_num)]
    rfl
  · obtain ⟨_, _, _, _, h4⟩ := CreateFilter_shape exampleTarget [4611686018427387904] 0
      4611686018427387904 [[1], [2], [3], [4]] [] rfl
    rw [h4, hfb]
    simp

/-- Append-only and deterministic build, wherever the call returns: for a policy made by
the constructor, a valid level, any initial string `dst0` and a key list that is empty
or for which the byte count of lines 43 and 49, taken in 64-bit arithmetic, is not zero
(as it is when `1 ≤ n * bits_per_key ≤ 2 ^ 64 - 8`), `CreateFilter` returns normally and
leaves `dst0` followed by the blob it produces on an empty string: the old bytes are
unchanged, and the appended bytes are the same whatever string it started from. -/
theorem build_is_append_only (T : Target) (bits_per_key : List Nat) (level b : Nat)
    (keys : List Slice) (dst0 : List UInt8) (hlevel : bits_per_key[level]? = some b)
    (hret : keys = [] ∨ 0 < filterBytes keys.length b) :
    CreateFilter T (NewBloomFilterPolicy bits_per_key) keys dst0 level =
        ⟨dst0 ++ (CreateFilter T (NewBloomFilterPolicy bits_per_key) keys [] level).dst, none⟩ ∧
      (CreateFilter T (NewBloomFilterPolicy bits_per_key) keys [] level).fault = none ∧
      (CreateFilter T (NewBloomFilterPolicy bits_per_key) keys dst0 level).dst.take dst0.length
        = dst0 ∧
      (∀ dst1 : List UInt8,
        (CreateFilter T (NewBloomFilterPolicy bits_per_key) keys dst0 level).dst.drop dst0.length
          = (CreateFilter T (NewBloomFilterPolicy bits_per_key) keys dst1 level).dst.drop
              dst1.length) := by
  obtain ⟨_, _, _, _, hf⟩ := CreateFilter_shape T bits_per_key level b keys [] hlevel
  have hnone : (CreateFilter T (NewBloomFilterPolicy bits_per_key) keys [] level).fault = none := by
    rw [hf, if_neg]
    rintro ⟨hz, hne⟩
    rcases hret with he | hp
    · exact hne he
    · omega
  have happ := CreateFilter_append T (NewBloomFilterPolicy bits_per_key) keys dst0 level
  rw [hnone] at happ
  refine ⟨happ, hnone, ?_, ?_⟩
  · rw [happ]; simp
  · intro dst1
    rw [happ, CreateFilter_append T (NewBloomFilterPolicy bits_per_key) keys dst1 level]
    simp

/-- C10: the code departs from the claim at zero capacity.  For a policy made by the
constructor, a level whose bits-per-key value is 0 and a non-empty key list,
`CreateFilter` takes the hash modulo zero. -/
theorem build_takes_modulo_zero (T : Target) (bits_per_key : List Nat) (level : Nat)
    (keys : List Slice) (dst : List UInt8) (hlevel : bits_per_key[level]? = some 0)
    (hkeys : keys ≠ []) :
    (CreateFilter T (NewBloomFilterPolicy bits_per_key) keys dst level).fault =
      some Fault.modZero := by
  obtain ⟨_, _, _, _, hf⟩ := CreateFilter_shape T bits_per_key level 0 keys dst hlevel
  rw [hf, if_pos ⟨filterBytes_zero_right _, hkeys⟩]


/-- C11, as it is written, fails: the blob that consists of the single byte 31 has a
trailing byte greater than 30, and `KeyMayMatch` answers `false` on it. -/
theorem reserved_single_byte_counterexample :
    ([31] : Slice).getLast? = some 31 ∧ 30 < (31 : UInt8).toNat ∧
      KeyMayMatch exampleTarget (NewBloomFilterPolicy [10]) [1, 2] [31] = Except.ok false ∧
      KeyMayMatch exampleTarget (NewBloomFilterPolicy [10]) [1, 2] [31] ≠ Except.ok true := by
  refine ⟨rfl, by decide, rfl, ?_⟩
  intro h
  cases h

/-- C11, amended: on a blob whose trailing byte is greater than 30, `KeyMayMatch` answers
`true` when the blob has at least two bytes, whatever the bit array holds, and `false`
when the blob is that single byte. -/
theorem reserved_encoding_from_two_bytes (T : Target) (q : BloomFilterPolicy)
    (key blob : Slice) (c : UInt8) (hlast : blob.getLast? = some c) (hc : 30 < c.toNat) :
    (2 ≤ blob.length → KeyMayMatch T q key blob = Except.ok true) ∧
      (blob.length < 2 → KeyMayMatch T q key blob = Except.ok false) := by
  constructor
  · intro hlen
    unfold KeyMayMatch
    rw [List.getLast?_eq_getElem?] at hlast
    have h2 : ¬ blob.length < 2 := by omega
    simp only [if_neg h2, hlast]
    rw [if_pos (sizeOfChar_gt T.charSigned c hc)]
  · intro hlen
    unfold KeyMayMatch
    simp only [if_pos hlen]

/-- C12: on a blob of length `len ≥ 2` whose trailing byte `k` is at most 30, with
`bits = (len - 1) * 8`, `h0 = BloomHash(key)` and `delta` the rotation of `h0` to the
right by 17, `KeyMayMatch` answers `true` exactly when for every `j < k` the bit at
position `((h0 + j * delta) mod 2^32) mod bits` is set in the blob, and `false` exactly
when one of these bits is clear; bit `p` is bit `p % 8`, from the least significant
one, of byte `p / 8`. -/
theorem query_characterisation (T : Target) (q : BloomFilterPolicy) (key blob : Slice)
    (c : UInt8) (hlen : 2 ≤ blob.length) (hlast : blob.getLast? = some c)
    (hk : c.toNat ≤ 30) :
    (KeyMayMatch T q key blob = Except.ok true ↔
        ∀ j < c.toNat, bitAt blob
          ((BloomHash T key + j * rotateRight32 (BloomHash T key) 17) % 2 ^ 32
            % ((blob.length - 1) * 8)) = true) ∧
      (KeyMayMatch T q key blob = Except.ok false ↔
        ∃ j < c.toNat, bitAt blob
          ((BloomHash T key + j * rotateRight32 (BloomHash T key) 17) % 2 ^ 32
            % ((blob.length - 1) * 8)) = false) ∧
      (∀ p, bitAt blob p = true ↔
        ∃ b, blob[p / 8]? = some b ∧ b.toNat.testBit (p % 8) = true) := by
  rw [List.getLast?_eq_getElem?] at hlast
  have hsz : sizeOfChar T.charSigned c = c.toNat := sizeOfChar_small _ _ (by omega)
  have hq := KeyMayMatch_eq_testProbes T q key blob (blob.length - 1) c.toNat c (by omega)
    (by omega) hlast hsz hk
  have hb : 0 < (blob.length - 1) * 8 := by omega
  have hl : (blob.length - 1) * 8 ≤ 8 * blob.length := by omega
  have hrot := rotDelta_eq_rotateRight (BloomHash T key) (BloomHash_lt T key)
  refine ⟨?_, ?_, ?_⟩
  · rw [hq, testProbes_true_iff T _ _ blob hb hl _ _ (BloomHash_lt T key), ← hrot]
    constructor
    · intro h j hj
      rw [← probe_pos_eq]; exact h j hj
    · intro h j hj
      rw [probe_pos_eq]; exact h j hj
  · rw [hq, testProbes_false_iff T _ _ blob hb hl _ _ (BloomHash_lt T key), ← hrot]
    constructor
    · rintro ⟨j, hj, h⟩
      exact ⟨j, hj, by rw [← probe_pos_eq]; exact h⟩
    · rintro ⟨j, hj, h⟩
      exact ⟨j, hj, by rw [probe_pos_eq]; exact h⟩
  · intro p
    unfold bitAt
    cases blob[p / 8]? with
    | none => simp
    | some b => simp

/-- C13, as it is written, fails: with `bits_per_key = 6148914691236517206` and three
keys the 64-bit product of line 43 wraps to 2; `CreateFilter` returns with a bit array
of one byte, not of `8 * ceil(n * bits_per_key / 8) = 2 ^ 64 + 8` bits, so that the probe
position `((h0 + 0 * delta) mod 2^32) mod (2 ^ 64 + 8) = h0` of the key `[1]` is not a
set bit of the appended bytes, although `probes[0] = 30 > 0`. -/
theorem build_bits_overflow_counterexample :
    (CreateFilter exampleTarget (NewBloomFilterPolicy [6148914691236517206])
        [[1], [2], [3]] [] 0).fault = none ∧
      (CreateFilter exampleTarget (NewBloomFilterPolicy [6148914691236517206])
        [[1], [2], [3]] [] 0).dst.length = 2 ∧
      (NewBloomFilterPolicy [6148914691236517206]).k_per_level_[0]? = some 30 ∧
      8 * ⌈(((([[1], [2], [3]] : List Slice).length * 6148914691236517206 : ℕ)) : ℚ) / 8⌉₊
        = 18446744073709551624 ∧
      BloomHash exampleTarget [1] < 18446744073709551624 ∧
      (BloomHash exampleTarget [1] + 0 * rotateRight32 (BloomHash exampleTarget [1]) 17)
        % 2 ^ 32 % 18446744073709551624 = BloomHash exampleTarget [1] ∧
      bitAt (CreateFilter exampleTarget (NewBloomFilterPolicy [6148914691236517206])
        [[1], [2], [3]] [] 0).dst (BloomHash exampleTarget [1]) = false := by
  have hfb : filterBytes ([[1], [2], [3]] : List Slice).length 6148914691236517206 = 1 := by
    decide
  obtain ⟨blob, h1, h2, _, h4⟩ := CreateFilter_shape exampleTarget [6148914691236517206] 0
    6148914691236517206 [[1], [2], [3]] [] rfl
  rw [hfb] at h2 h4
  have hlen : (CreateFilter exampleTarget (NewBloomFilterPolicy [6148914691236517206])
      [[1], [2], [3]] [] 0).dst.length = 2 := by
    rw [h1, List.nil_append, h2]
  have hhash : BloomHash exampleTarget [1] = 3611593037 := by decide
  refine ⟨?_, hlen, ?_, ?_, ?_, ?_, ?_⟩
  · rw [h4]; simp
  · rw [k_per_level_get, List.getElem?_cons_zero, Option.map_some',
      probesFor_of_ge 6148914691236517206 (by norm_num)]
  · rw [ceil_div_eight]; rfl
  · rw [hhash]; norm_num
  · rw [hhash]; norm_num
  · unfold bitAt
    rw [List.getElem?_eq_none (by rw [hlen, hhash]; norm_num)]

/-- C13, amended: for a policy made by the constructor, a valid level with
`bits_per_key ≥ 1` and a non-empty key list with `n * bits_per_key ≤ 2 ^ 64 - 8` (so that
the 64-bit arithmetic of lines 43 and 49 does not wrap), `CreateFilter` returns normally
having appended `bytes = ceil(n * bits_per_key / 8)` bytes and the byte
`k = probes[level]`; with `bits = bytes * 8`, bit `p < bits` of the appended bytes is
set exactly when `p = ((h0 + j * delta) mod 2^32) mod bits` for a key of the list and a
`j < k`, where `h0 = BloomHash(key)` and `delta` is `h0` rotated right by 17; and the
probe loop of a key clears no bit of the array, whatever state it starts from. -/
theorem build_characterisation (T : Target) (bits_per_key : List Nat) (level b : Nat)
    (keys : List Slice) (dst : List UInt8) (hlevel : bits_per_key[level]? = some b)
    (hb : 1 ≤ b) (hfit : keys.length * b + 7 < 2 ^ 64) (hkeys : keys ≠ []) :
    ∃ blob k bytes,
      (NewBloomFilterPolicy bits_per_key).k_per_level_[level]? = some k ∧
      bytes = ⌈((keys.length * b : ℕ) : ℚ) / 8⌉₊ ∧
      CreateFilter T (NewBloomFilterPolicy bits_per_key) keys dst level = ⟨dst ++ blob, none⟩ ∧
      blob.length = bytes + 1 ∧
      (∀ p < bytes * 8, (bitAt blob p = true ↔
        ∃ key ∈ keys, ∃ j < k,
          p = (BloomHash T key + j * rotateRight32 (BloomHash T key) 17) % 2 ^ 32
            % (bytes * 8))) ∧
      (∀ (arr : List UInt8) (h delta r : Nat), h < 2 ^ 32 → arr.length = bytes + 1 →
        ∀ p, bitAt arr p = true →
          bitAt (setProbes T (bytes * 8) 0 delta r h arr).dst p = true) := by
  have hn : 1 ≤ keys.length := List.length_pos.2 hkeys
  have hpos := capacity_pos keys.length b hn hb
  have hfb := filterBytes_of_fit keys.length b hfit
  have hlen0 : (List.replicate ((keys.length * b + 7) / 8) (0 : UInt8) ++
      [UInt8.ofNat (probesFor b)]).length = (keys.length * b + 7) / 8 + 1 := by simp
  obtain ⟨a1, a2, _, _, _⟩ := addKeys_spec T (probesFor b) _ hpos keys _ hlen0
  have hexact := addKeys_exact T (probesFor b) _ hpos keys _ hlen0
  have hk := k_per_level_get bits_per_key level
  rw [hlevel] at hk
  refine ⟨(addKeys T (probesFor b) ((keys.length * b + 7) / 8 * 8) 0 keys
      (List.replicate ((keys.length * b + 7) / 8) 0 ++ [UInt8.ofNat (probesFor b)])).dst,
    probesFor b, (keys.length * b + 7) / 8, hk, (ceil_div_eight _).symm, ?_, a2, ?_, ?_⟩
  · rw [CreateFilter_unfold T bits_per_key level b keys dst hlevel, hfb, a1]
  · intro p hp
    rw [hexact p, bitAt_fresh _ _ p hp]
    constructor
    · rintro (h | ⟨key, hkey, j, hj, h⟩)
      · cases h
      · refine ⟨key, hkey, j, hj, ?_⟩
        rw [h, probe_pos_eq, rotDelta_eq_rotateRight _ (BloomHash_lt T key)]
    · rintro ⟨key, hkey, j, hj, h⟩
      refine Or.inr ⟨key, hkey, j, hj, ?_⟩
      rw [h, probe_pos_eq, rotDelta_eq_rotateRight _ (BloomHash_lt T key)]
  · intro arr h delta r hh hlen p hp
    exact (setProbes_spec T _ delta hpos r h arr hh hlen).2.2.2.1 p hp

/-- C14: for a policy made by the constructor and a valid level, `CreateFilter` on an
empty key list returns normally having appended the single byte `probes[level]`; the
loop over the keys does nothing on an empty list; and `KeyMayMatch` answers `false` on
that one-byte blob for every key. -/
theorem empty_filter_matches_nothing (T : Target) (bits_per_key : List Nat) (level b : Nat)
    (dst : List UInt8) (hlevel : bits_per_key[level]? = some b) :
    ∃ k, (NewBloomFilterPolicy bits_per_key).k_per_level_[level]? = some k ∧
      CreateFilter T (NewBloomFilterPolicy bits_per_key) [] dst level =
        ⟨dst ++ [UInt8.ofNat k], none⟩ ∧
      (∀ (bits init_size : Nat) (arr : List UInt8),
        addKeys T k bits init_size [] arr = ⟨arr, none⟩) ∧
      (∀ (q : BloomFilterPolicy) (key : Slice),
        KeyMayMatch T q key [UInt8.ofNat k] = Except.ok false) := by
  have hk := k_per_level_get bits_per_key level
  rw [hlevel] at hk
  refine ⟨probesFor b, hk, ?_, fun _ _ _ => rfl, fun _ _ => rfl⟩
  rw [CreateFilter_unfold T bits_per_key level b [] dst hlevel, List.length_nil,
    filterBytes_zero_left]
  simp [addKeys]

/-- C15: for every 32-bit `h`, `delta = (h >> 17) | (h << 15)` in 32-bit arithmetic is
`h` rotated right by 17 positions, which is `h` rotated left by 15: bit `i` of `delta`
is bit `(i + 17) mod 32` of `h`.  The build and the query both take `delta` by this
expression from `BloomHash(key) = Hash(key, 0xbc9f1d34)`. -/
theorem second_hash_is_rotation (T : Target) (h : Nat) (hh : h < 2 ^ 32) :
    rotDelta h = (h >>> 17) ||| ((h <<< 15) % 2 ^ 32) ∧
      rotDelta h = rotateRight32 h 17 ∧ rotDelta h = rotateLeft32 h 15 ∧
      rotDelta h < 2 ^ 32 ∧
      (∀ i < 32, (rotDelta h).testBit i = h.testBit ((i + 17) % 32)) ∧
      (∀ key : Slice, BloomHash T key = T.Hash key 0xbc9f1d34 % 2 ^ 32) ∧
      (∀ (k bits init_size : Nat) (key : Slice) (dst : List UInt8),
        addKeys T k bits init_size [key] dst =
          setProbes T bits init_size (rotDelta (BloomHash T key)) k (BloomHash T key) dst) ∧
      (∀ (q : BloomFilterPolicy) (key blob : Slice) (c : UInt8), 2 ≤ blob.length →
        blob.getLast? = some c → c.toNat ≤ 30 →
        KeyMayMatch T q key blob =
          testProbes T ((blob.length - 1) * 8) (rotDelta (BloomHash T key)) blob c.toNat
            (BloomHash T key)) := by
  have hrot := rotDelta_eq_rotateRight h hh
  refine ⟨rfl, hrot, ?_, rotDelta_lt h hh, ?_, fun _ => rfl, ?_, ?_⟩
  · rw [rotateLeft_15_eq_rotateRight_17]; exact hrot
  · intro i hi
    rw [rotDelta_testBit h hh i]
    simp [hi]
  · intro k bits init_size key dst
    have hstep : addKeys T k bits init_size [key] dst =
        (match (setProbes T bits init_size (rotDelta (BloomHash T key)) k
            (BloomHash T key) dst).fault with
          | some f => ⟨(setProbes T bits init_size (rotDelta (BloomHash T key)) k
              (BloomHash T key) dst).dst, some f⟩
          | none => ⟨(setProbes T bits init_size (rotDelta (BloomHash T key)) k
              (BloomHash T key) dst).dst, none⟩) := rfl
    rw [hstep]
    cases hf : (setProbes T bits init_size (rotDelta (BloomHash T key)) k
        (BloomHash T key) dst).fault with
    | none => simp only; rw [← hf]
    | some f => simp only; rw [← hf]
  · intro q key blob c hlen hlast hk
    rw [List.getLast?_eq_getElem?] at hlast
    exact KeyMayMatch_eq_testProbes T q key blob (blob.length - 1) c.toNat c (by omega)
      (by omega) hlast (sizeOfChar_small _ _ (by omega)) hk

/-- C16: the code departs from the claim where the 64-bit bit count is zero.  With
`bits_per_key = 2 ^ 62` and four keys the product of line 43 is `2 ^ 64`, which wraps to
0; on the key list and on its reversal `CreateFilter` appends the byte
`probes[0] = 30` and stops at the remainder by zero of line 63: neither call returns a
blob. -/
theorem key_order_build_stops_at_modulo_zero :
    ([4611686018427387904] : List Nat)[0]? = some 4611686018427387904 ∧
      1 ≤ 4611686018427387904 ∧
      ([[1], [2], [3], [4]] : List Slice).Perm [[4], [3], [2], [1]] ∧
      CreateFilter exampleTarget (NewBloomFilterPolicy [4611686018427387904])
        [[1], [2], [3], [4]] [] 0 = ⟨[30], some Fault.modZero⟩ ∧
      CreateFilter exampleTarget (NewBloomFilterPolicy [4611686018427387904])
        [[4], [3], [2], [1]] [] 0 = ⟨[30], some Fault.modZero⟩ := by
  have hfb : filterBytes 4 4611686018427387904 = 0 := by decide
  have hperm : ([[1], [2], [3], [4]] : List Slice).Perm [[4], [3], [2], [1]] :=
    (List.reverse_perm ([[1], [2], [3], [4]] : List Slice)).symm
  refine ⟨rfl, by norm_num, hperm, ?_, ?_⟩
  · rw [CreateFilter_unfold exampleTarget [4611686018427387904] 0 4611686018427387904
      [[1], [2], [3], [4]] [] rfl]
    simp only [List.length_cons, List.length_nil]
    rw [hfb, probesFor_of_ge 4611686018427387904 (by norm_num),
      Nat.zero_mul, addKeys_zero_bits exampleTarget 30 0 [1] [[2], [3], [4]] _ (by norm_num)]
    rfl
  · rw [CreateFilter_unfold exampleTarget [4611686018427387904] 0 4611686018427387904
      [[4], [3], [2], [1]] [] rfl]
    simp only [List.length_cons, List.length_nil]
    rw [hfb, probesFor_of_ge 4611686018427387904 (by norm_num),
      Nat.zero_mul, addKeys_zero_bits exampleTarget 30 0 [4] [[3], [2], [1]] _ (by norm_num)]
    rfl

/-- Key order does not matter, wherever the call returns: for a policy made by the
constructor, a valid level and two key lists that are permutations of each other and
are empty or have a byte count of lines 43 and 49, taken in 64-bit arithmetic, that is
not zero (as it is when `1 ≤ n * bits_per_key ≤ 2 ^ 64 - 8`), `CreateFilter` returns
normally on both with the same string: the appended blobs are byte-identical. -/
theorem key_order_does_not_matter (T : Target) (bits_per_key : List Nat) (level b : Nat)
    (keys keys1 : List Slice) (dst : List UInt8) (hlevel : bits_per_key[level]? = some b)
    (hperm : keys.Perm keys1) (hret : keys = [] ∨ 0 < filterBytes keys.length b) :
    CreateFilter T (NewBloomFilterPolicy bits_per_key) keys dst level =
        CreateFilter T (NewBloomFilterPolicy bits_per_key) keys1 dst level ∧
      (CreateFilter T (NewBloomFilterPolicy bits_per_key) keys dst level).fault = none ∧
      (CreateFilter T (NewBloomFilterPolicy bits_per_key) keys1 dst level).fault = none ∧
      (CreateFilter T (NewBloomFilterPolicy bits_per_key) keys dst level).dst.drop dst.length =
        (CreateFilter T (NewBloomFilterPolicy bits_per_key) keys1 dst level).dst.drop
          dst.length := by
  have hlenp := hperm.length_eq
  have hmain : CreateFilter T (NewBloomFilterPolicy bits_per_key) keys dst level =
        CreateFilter T (NewBloomFilterPolicy bits_per_key) keys1 dst level ∧
      (CreateFilter T (NewBloomFilterPolicy bits_per_key) keys dst level).fault = none := by
    rw [CreateFilter_unfold T bits_per_key level b keys dst hlevel,
      CreateFilter_unfold T bits_per_key level b keys1 dst hlevel, ← hlenp]
    rcases hret with he | hpos
    · have e2 : keys1 = [] := List.length_eq_zero.1 (by rw [← hlenp, he]; rfl)
      subst he; subst e2
      rw [List.length_nil, filterBytes_zero_left]
      exact ⟨rfl, rfl⟩
    · have hlen0 : (List.replicate (filterBytes keys.length b) (0 : UInt8) ++
          [UInt8.ofNat (probesFor b)]).length = filterBytes keys.length b + 1 := by simp
      obtain ⟨a1, a2, _, _, _⟩ := addKeys_spec T (probesFor b) _ hpos keys _ hlen0
      obtain ⟨b1, b2, _, _, _⟩ := addKeys_spec T (probesFor b) _ hpos keys1 _ hlen0
      have hsame : (addKeys T (probesFor b) (filterBytes keys.length b * 8) 0 keys
          (List.replicate (filterBytes keys.length b) 0 ++ [UInt8.ofNat (probesFor b)])).dst =
          (addKeys T (probesFor b) (filterBytes keys.length b * 8) 0 keys1
          (List.replicate (filterBytes keys.length b) 0 ++ [UInt8.ofNat (probesFor b)])).dst := by
        apply bytes_ext _ _ (by rw [a2, b2])
        intro p
        have e1 := addKeys_exact T (probesFor b) _ hpos keys _ hlen0 p
        have e2 := addKeys_exact T (probesFor b) _ hpos keys1 _ hlen0 p
        have hiff : bitAt (addKeys T (probesFor b) (filterBytes keys.length b * 8) 0 keys
            (List.replicate (filterBytes keys.length b) 0 ++ [UInt8.ofNat (probesFor b)])).dst p
              = true ↔
            bitAt (addKeys T (probesFor b) (filterBytes keys.length b * 8) 0 keys1
            (List.replicate (filterBytes keys.length b) 0 ++ [UInt8.ofNat (probesFor b)])).dst p
              = true := by
          rw [e1, e2]
          constructor
          · rintro (h | ⟨key, hkey, j, hj, h⟩)
            · exact Or.inl h
            · exact Or.inr ⟨key, hperm.mem_iff.1 hkey, j, hj, h⟩
          · rintro (h | ⟨key, hkey, j, hj, h⟩)
            · exact Or.inl h
            · exact Or.inr ⟨key, hperm.mem_iff.2 hkey, j, hj, h⟩
        exact Bool.eq_iff_iff.2 hiff
      rw [hsame, a1, b1]
      exact ⟨rfl, rfl⟩
  exact ⟨hmain.1, hmain.2, by rw [← hmain.1]; exact hmain.2, by rw [hmain.1]⟩

/-- C17: on a blob of length `len ≥ 2` whose trailing byte is at most 30, the modulus
`(len - 1) * 8` is at least 8, `KeyMayMatch` returns an answer (no remainder by zero, no
read outside the blob), and every byte index `bitpos / 8` that its probe loop reads is
less than `len - 1`: neither the trailing byte nor anything behind the blob. -/
theorem query_stays_inside (T : Target) (q : BloomFilterPolicy) (key blob : Slice)
    (c : UInt8) (hlen : 2 ≤ blob.length) (hlast : blob.getLast? = some c)
    (hk : c.toNat ≤ 30) :
    8 ≤ (blob.length - 1) * 8 ∧
      (∃ answer, KeyMayMatch T q key blob = Except.ok answer) ∧
      (KeyMayMatchLog T q key blob).1 = KeyMayMatch T q key blob ∧
      (∀ i ∈ (KeyMayMatchLog T q key blob).2, i < blob.length - 1) := by
  rw [List.getLast?_eq_getElem?] at hlast
  have hsz : sizeOfChar T.charSigned c = c.toNat := sizeOfChar_small _ _ (by omega)
  have hq := KeyMayMatch_eq_testProbes T q key blob (blob.length - 1) c.toNat c (by omega)
    (by omega) hlast hsz hk
  have hl := KeyMayMatchLog_eq T q key blob (blob.length - 1) c.toNat c (by omega)
    (by omega) hlast hsz hk
  refine ⟨by omega, ?_, KeyMayMatchLog_fst T q key blob, ?_⟩
  · rw [hq]
    exact testProbes_total T _ _ blob (by omega) (by omega) _ _
  · rw [hl]
    exact testProbesLog_reads T (blob.length - 1) _ blob (by omega) _ _

/-- C18: on a blob of length at least 2 whose trailing byte is 0, `KeyMayMatch` answers
`true` for every key, whatever the bit array holds: the probe loop runs zero times. -/
theorem zero_probe_count_matches (T : Target) (q : BloomFilterPolicy) (key blob : Slice)
    (hlen : 2 ≤ blob.length) (hlast : blob.getLast? = some 0) :
    KeyMayMatch T q key blob = Except.ok true ∧
      (KeyMayMatchLog T q key blob).2 = [] := by
  rw [List.getLast?_eq_getElem?] at hlast
  have hsz : sizeOfChar T.charSigned 0 = 0 := sizeOfChar_small _ _ (by decide)
  have hq := KeyMayMatch_eq_testProbes T q key blob (blob.length - 1) 0 0 (by omega)
    (by omega) hlast hsz (by omega)
  have hl := KeyMayMatchLog_eq T q key blob (blob.length - 1) 0 0 (by omega)
    (by omega) hlast hsz (by omega)
  rw [hq, hl]
  exact ⟨rfl, rfl⟩

/-! ## The theorems with hypotheses, at concrete inputs -/

/-- Instance of the amended theorem of C2 at a concrete input. -/
theorem no_false_negative_same_parameters_witness :
    ([10] : List Nat)[0]? = some 10 ∧ 1 ≤ 10 ∧
      ([[1, 2], [3]] : List Slice).length * 10 + 7 < 2 ^ 64 ∧
      ([1, 2] : Slice) ∈ ([[1, 2], [3]] : List Slice) ∧
      ∃ blob k,
        CreateFilter exampleTarget (NewBloomFilterPolicy [10]) [[1, 2], [3]] [9] 0 =
          ⟨[9] ++ blob, none⟩ ∧
        (NewBloomFilterPolicy [10]).k_per_level_[0]? = some k ∧
        blob.getLast? = some (UInt8.ofNat k) ∧
        sizeOfChar exampleTarget.charSigned (UInt8.ofNat k) = k ∧
        (blob.length - 1) * 8 =
          8 * ⌈(((([[1, 2], [3]] : List Slice).length * 10 : ℕ)) : ℚ) / 8⌉₊ ∧
        (∀ j < k, bitAt blob (hashAt (BloomHash exampleTarget [1, 2])
          (rotDelta (BloomHash exampleTarget [1, 2])) j
            % ((blob.length - 1) * 8) % 2 ^ 32) = true) ∧
        KeyMayMatch exampleTarget (NewBloomFilterPolicy [2]) [1, 2] blob = Except.ok true :=
  ⟨rfl, by decide, by decide, by simp,
    no_false_negative_same_parameters exampleTarget (NewBloomFilterPolicy [2]) [10] 0 10
      [[1, 2], [3]] [1, 2] [9] rfl (by decide) (by decide) (by simp)⟩

/-- Instance of the theorem of C3 at a concrete input. -/
theorem degenerate_blob_never_matches_witness :
    ([7] : Slice).length < 2 ∧
      KeyMayMatch exampleTarget (NewBloomFilterPolicy [10]) [1, 2] [7] = Except.ok false :=
  ⟨by decide,
    degenerate_blob_never_matches exampleTarget (NewBloomFilterPolicy [10]) [1, 2] [7]
      (by decide)⟩

/-- Instance of the theorem of C4 at a concrete input. -/
theorem reserved_encoding_matches_witness :
    2 ≤ ([0, 200] : Slice).length ∧ ([0, 200] : Slice).getLast? = some 200 ∧
      30 < (200 : UInt8).toNat ∧
      KeyMayMatch exampleTarget (NewBloomFilterPolicy [10]) [1, 2] [0, 200] = Except.ok true :=
  ⟨by decide, rfl, by decide,
    reserved_encoding_matches exampleTarget (NewBloomFilterPolicy [10]) [1, 2] [0, 200] 200
      (by decide) rfl (by decide)⟩

/-- Instance of the amended theorem of C6 at a concrete input. -/
theorem blob_layout_and_size_witness :
    ([10, 0] : List Nat)[0]? = some 10 ∧
      ([[1, 2], [3]] : List Slice).length * 10 + 7 < 2 ^ 64 ∧
      (([[1, 2], [3]] : List Slice) = [] ∨ 1 ≤ 10) ∧
      ∃ k bytes, (NewBloomFilterPolicy [10, 0]).k_per_level_[0]? = some k ∧
        bytes = ⌈(((([[1, 2], [3]] : List Slice).length * 10 : ℕ)) : ℚ) / 8⌉₊ ∧
        CreateFilter exampleTarget (NewBloomFilterPolicy [10, 0]) [[1, 2], [3]] [9] 0 =
          addKeys exampleTarget k (bytes * 8) ([9] : List UInt8).length [[1, 2], [3]]
            ([9] ++ List.replicate bytes 0 ++ [UInt8.ofNat k]) ∧
        (CreateFilter exampleTarget (NewBloomFilterPolicy [10, 0]) [[1, 2], [3]] [9] 0).fault
          = none ∧
        (CreateFilter exampleTarget (NewBloomFilterPolicy [10, 0]) [[1, 2], [3]] [9] 0).dst.length
          = ([9] : List UInt8).length + (bytes + 1) ∧
        (CreateFilter exampleTarget (NewBloomFilterPolicy [10, 0]) [[1, 2], [3]] [9] 0).dst.getLast?
          = some (UInt8.ofNat k) ∧
        (UInt8.ofNat k).toNat = k ∧
        8 ∣ bytes * 8 ∧ ([[1, 2], [3]] : List Slice).length * 10 ≤ bytes * 8 ∧
        bytes * 8 < ([[1, 2], [3]] : List Slice).length * 10 + 8 :=
  ⟨rfl, by decide, Or.inr (by decide),
    blob_layout_and_size exampleTarget [10, 0] 0 10 [[1, 2], [3]] [9] rfl (by decide)
      (Or.inr (by decide))⟩

/-- The append-only build at a concrete input. -/
theorem build_is_append_only_witness :
    ([10] : List Nat)[0]? = some 10 ∧
      (([[1, 2], [3]] : List Slice) = [] ∨
        0 < filterBytes ([[1, 2], [3]] : List Slice).length 10) ∧
      CreateFilter exampleTarget (NewBloomFilterPolicy [10]) [[1, 2], [3]] [9, 8] 0 =
        ⟨[9, 8] ++ (CreateFilter exampleTarget (NewBloomFilterPolicy [10]) [[1, 2], [3]] [] 0).dst,
          none⟩ :=
  ⟨rfl, Or.inr (by decide),
    (build_is_append_only exampleTarget [10] 0 10 [[1, 2], [3]] [9, 8] rfl
      (Or.inr (by decide))).1⟩

/-- Instance of the theorem of C10 at a concrete input. -/
theorem build_takes_modulo_zero_witness :
    ([10, 0] : List Nat)[1]? = some 0 ∧ ([[1, 2], [3]] : List Slice) ≠ [] ∧
      (CreateFilter exampleTarget (NewBloomFilterPolicy [10, 0]) [[1, 2], [3]] [9] 1).fault =
        some Fault.modZero :=
  ⟨rfl, by simp,
    build_takes_modulo_zero exampleTarget [10, 0] 1 [[1, 2], [3]] [9] rfl (by simp)⟩


/-- Instance of the amended theorem of C11 at a concrete input. -/
theorem reserved_encoding_from_two_bytes_witness :
    ([255, 31] : Slice).getLast? = some 31 ∧ 30 < (31 : UInt8).toNat ∧
      ((2 ≤ ([255, 31] : Slice).length →
          KeyMayMatch exampleTarget (NewBloomFilterPolicy [10]) [1, 2] [255, 31] =
            Except.ok true) ∧
        (([255, 31] : Slice).length < 2 →
          KeyMayMatch exampleTarget (NewBloomFilterPolicy [10]) [1, 2] [255, 31] =
            Except.ok false)) :=
  ⟨rfl, by decide,
    reserved_encoding_from_two_bytes exampleTarget (NewBloomFilterPolicy [10]) [1, 2]
      [255, 31] 31 rfl (by decide)⟩

/-- Instance of the theorem of C12 at a concrete input. -/
theorem query_characterisation_witness :
    2 ≤ ([255, 255, 2] : Slice).length ∧ ([255, 255, 2] : Slice).getLast? = some 2 ∧
      (2 : UInt8).toNat ≤ 30 ∧
      (KeyMayMatch exampleTarget (NewBloomFilterPolicy [10]) [1, 2] [255, 255, 2] =
          Except.ok true ↔
        ∀ j < (2 : UInt8).toNat, bitAt [255, 255, 2]
          ((BloomHash exampleTarget [1, 2] + j * rotateRight32 (BloomHash exampleTarget [1, 2]) 17)
            % 2 ^ 32 % ((([255, 255, 2] : Slice).length - 1) * 8)) = true) :=
  ⟨by decide, rfl, by decide,
    (query_characterisation exampleTarget (NewBloomFilterPolicy [10]) [1, 2] [255, 255, 2] 2
      (by decide) rfl (by decide)).1⟩

/-- Instance of the amended theorem of C13 at a concrete input. -/
theorem build_characterisation_witness :
    ([10] : List Nat)[0]? = some 10 ∧ 1 ≤ 10 ∧
      ([[1, 2], [3]] : List Slice).length * 10 + 7 < 2 ^ 64 ∧
      ([[1, 2], [3]] : List Slice) ≠ [] ∧
      ∃ blob k bytes,
        (NewBloomFilterPolicy [10]).k_per_level_[0]? = some k ∧
        bytes = ⌈(((([[1, 2], [3]] : List Slice).length * 10 : ℕ)) : ℚ) / 8⌉₊ ∧
        CreateFilter exampleTarget (NewBloomFilterPolicy [10]) [[1, 2], [3]] [9] 0 =
          ⟨[9] ++ blob, none⟩ ∧
        blob.length = bytes + 1 ∧
        (∀ p < bytes * 8, (bitAt blob p = true ↔
          ∃ key ∈ ([[1, 2], [3]] : List Slice), ∃ j < k,
            p = (BloomHash exampleTarget key
                + j * rotateRight32 (BloomHash exampleTarget key) 17) % 2 ^ 32
              % (bytes * 8))) ∧
        (∀ (arr : List UInt8) (h delta r : Nat), h < 2 ^ 32 → arr.length = bytes + 1 →
          ∀ p, bitAt arr p = true →
            bitAt (setProbes exampleTarget (bytes * 8) 0 delta r h arr).dst p = true) :=
  ⟨rfl, by decide, by decide, by simp,
    build_characterisation exampleTarget [10] 0 10 [[1, 2], [3]] [9] rfl (by decide)
      (by decide) (by simp)⟩

/-- Instance of the theorem of C14 at a concrete input. -/
theorem empty_filter_matches_nothing_witness :
    ([10, 0] : List Nat)[1]? = some 0 ∧
      ∃ k, (NewBloomFilterPolicy [10, 0]).k_per_level_[1]? = some k ∧
        CreateFilter exampleTarget (NewBloomFilterPolicy [10, 0]) [] [9] 1 =
          ⟨[9] ++ [UInt8.ofNat k], none⟩ ∧
        (∀ (bits init_size : Nat) (arr : List UInt8),
          addKeys exampleTarget k bits init_size [] arr = ⟨arr, none⟩) ∧
        (∀ (q : BloomFilterPolicy) (key : Slice),
          KeyMayMatch exampleTarget q key [UInt8.ofNat k] = Except.ok false) :=
  ⟨rfl, empty_filter_matches_nothing exampleTarget [10, 0] 1 0 [9] rfl⟩

/-- Instance of the theorem of C15 at a concrete input. -/
theorem second_hash_is_rotation_witness :
    0x80000001 < 2 ^ 32 ∧ rotDelta 0x80000001 = rotateRight32 0x80000001 17 ∧
      rotDelta 0x80000001 = rotateLeft32 0x80000001 15 ∧ rotDelta 0x80000001 = 0xC000 :=
  ⟨by decide,
    (second_hash_is_rotation exampleTarget 0x80000001 (by decide)).2.1,
    (second_hash_is_rotation exampleTarget 0x80000001 (by decide)).2.2.1, by decide⟩

/-- The independence of the key order at a concrete input. -/
theorem key_order_does_not_matter_witness :
    ([10] : List Nat)[0]? = some 10 ∧
      ([[1, 2], [3]] : List Slice).Perm [[3], [1, 2]] ∧
      (([[1, 2], [3]] : List Slice) = [] ∨
        0 < filterBytes ([[1, 2], [3]] : List Slice).length 10) ∧
      CreateFilter exampleTarget (NewBloomFilterPolicy [10]) [[1, 2], [3]] [9] 0 =
        CreateFilter exampleTarget (NewBloomFilterPolicy [10]) [[3], [1, 2]] [9] 0 :=
  ⟨rfl, List.Perm.swap _ _ _, Or.inr (by decide),
    (key_order_does_not_matter exampleTarget [10] 0 10 [[1, 2], [3]] [[3], [1, 2]] [9] rfl
      (List.Perm.swap _ _ _) (Or.inr (by decide))).1⟩

/-- Instance of the theorem of C17 at a concrete input. -/
theorem query_stays_inside_witness :
    2 ≤ ([255, 255, 2] : Slice).length ∧ ([255, 255, 2] : Slice).getLast? = some 2 ∧
      (2 : UInt8).toNat ≤ 30 ∧
      (∀ i ∈ (KeyMayMatchLog exampleTarget (NewBloomFilterPolicy [10]) [1, 2]
        [255, 255, 2]).2, i < ([255, 255, 2] : Slice).length - 1) :=
  ⟨by decide, rfl, by decide,
    (query_stays_inside exampleTarget (NewBloomFilterPolicy [10]) [1, 2] [255, 255, 2] 2
      (by decide) rfl (by decide)).2.2.2⟩

/-- Instance of the theorem of C18 at a concrete input. -/
theorem zero_probe_count_matches_witness :
    2 ≤ ([0, 0] : Slice).length ∧ ([0, 0] : Slice).getLast? = some 0 ∧
      KeyMayMatch exampleTarget (NewBloomFilterPolicy [10]) [1, 2] [0, 0] = Except.ok true :=
  ⟨by decide, rfl,
    (zero_probe_count_matches exampleTarget (NewBloomFilterPolicy [10]) [1, 2] [0, 0]
      (by decide) rfl).1⟩

end leveldb
